import Mathlib

/-!
# Verification of the STREL-to-AFA compiler (`src/automatix/afa/strel.py`)

This file is a shallow embedding, in Lean 4, of the core of
`automatix/afa/strel.py`: the formula-to-AFA compiler (`_ExprMapper`), the
symbolic transition engine (`Transitions.__call__`, `StrelAutomaton`), and the
bounded-distance simple-path enumerator (`_all_reach_edge_paths`), together
with proofs about them.

Modelling conventions, used throughout:

* The STREL AST lives in `automatix.logic.strel`, which is not part of the
  source under verification (it is consumed as an opaque tagged tree).  The
  `Expr` type below is modelled from the spec's data-model section.  Subformula
  identity in the source is "equal canonical string key", and the spec states
  that structurally equal formulas produce equal keys and that this is the
  identity used throughout; we therefore identify canonical keys with the
  expressions themselves and use structural equality (`DecidableEq Expr`).
* Temporal intervals carry optional natural-number bounds, spatial intervals
  optional rationals (ℚ stands in for the source's IEEE floats; the spec calls
  the distances non-negative reals).  `math.inf` is modelled by `⊤ : WithTop ℚ`
  or by `none` in an `Option`, as noted at each definition.
* The Boolean polynomial manager (`BooleanPolynomial` over a BDD) is external;
  it is modelled by the syntactic Boolean polynomials `BPoly` with the
  dict-based semantic functions `evalOpt` and `letSubstOpt` (the manager's
  `eval` and `let`), `neg`, `add`, `mul`.
  A BDD is canonical, so the source's `is_top` is semantic tautology; on the
  syntactic model `isTop` is constructor equality; the only use of `is_top`
  (the early break in `check_reach`) is a semantic no-op either way.
* Python dict lookups that can raise `KeyError` — `transitions[state]` and
  `const_mapping[state]` on keys the compiler never installed, and polynomial
  evaluation against a dict that does not cover the support — are embedded as
  `Option`-valued functions (`none` is the raised exception), guarded by the
  actual key sets; compiled runs do reach the raising branches (see the C2
  counterexample).  The total variants `BPoly.eval`/`BPoly.letSubst` are
  proof-internal devices only, related to the partial ones by the
  `*_agree` lemmas.
* Python functions that recurse through rewrites (`_ExprMapper.visit` and
  `Transitions.__call__` through the installed closures) terminate because a
  measure `muExpr` strictly decreases along every call edge.  The embeddings
  take an explicit fuel argument that is decremented at every recursive call;
  the top-level wrappers pass `muExpr φ + 1`, which dominates the recursion
  depth, so the out-of-fuel branch is unreachable for them.
-/

/-- Locations are integers in `[0, N)` (`Location: TypeAlias = int`). -/
abbrev Location := ℕ

/-- Temporal interval: `TimeInterval(start?, end?)` with optional non-negative
integer bounds.  Modelled from the spec: the AST module is external; the spec's
data model says both bounds are optional non-negative integers for temporal
operators.  `end` is a Lean keyword, so the fields are `istart`/`iend`. -/
structure TimeInterval where
  istart : Option ℕ
  iend : Option ℕ
deriving DecidableEq, Repr

/-- Spatial (distance) interval: optional non-negative rational bounds
(rationals stand in for the source's floats / the spec's reals).
Modelled from the spec's data model for the spatial operators. -/
structure DistInterval where
  istart : Option ℚ
  iend : Option ℚ
deriving DecidableEq, Repr

/-- Modelled from the spec: `TimeInterval.is_untimed` lives in the external AST
module.  The spec's tie-breaks: `TimeInterval(None, None)`, `TimeInterval(0,
None)` and the absent interval all denote the untimed operator. -/
def TimeInterval.is_untimed (i : TimeInterval) : Bool :=
  (i.istart == none || i.istart == some 0) && i.iend == none

/-- The STREL expression tree, modelled from the spec's data model (the AST
module `automatix.logic.strel` is external).  Constructor names follow the
source's class names.  `NextOp.steps` is optional because the compiler guards
`if phi.steps is None`. -/
inductive Expr where
  | Constant (value : Bool)
  | Identifier (name : String)
  | NotOp (arg : Expr)
  | AndOp (lhs rhs : Expr)
  | OrOp (lhs rhs : Expr)
  | NextOp (steps : Option ℕ) (arg : Expr)
  | EventuallyOp (interval : Option TimeInterval) (arg : Expr)
  | GloballyOp (interval : Option TimeInterval) (arg : Expr)
  | UntilOp (lhs : Expr) (interval : Option TimeInterval) (rhs : Expr)
  | SomewhereOp (interval : DistInterval) (arg : Expr)
  | EverywhereOp (interval : DistInterval) (arg : Expr)
  | ReachOp (lhs : Expr) (interval : DistInterval) (rhs : Expr)
  | EscapeOp (interval : DistInterval) (arg : Expr)
deriving DecidableEq, Repr

/-- Automaton states: `Q: TypeAlias = tuple[strel.Expr, Location]`. -/
abbrev Q := Expr × Location

/-- The error outcomes of compilation.  The source raises Python exceptions;
the spec's §7 groups them into `CompileError(...)` kinds.  `everywhereNotImpl`
is the bare `raise NotImplementedError()` in the `EverywhereOp` case of
`visit`; `escapeNotImpl` is `raise NotImplementedError("We currently don't
support escape")`; `assertionError` is the `assert` in `StrelAutomaton.__init__`
and in `_ExprMapper.__init__`; `emptyMapping` is the `StopIteration` from
`next(iter(const_mapping.values()))` on an empty table; `invalidParameter`
is the spec's `CompileError(InvalidParameter)`;
`outOfFuel` is the (unreachable) fuel cutoff of the embedding. -/
inductive Err where
  | escapeNotImpl
  | everywhereNotImpl
  | assertionError
  | emptyMapping
  | invalidParameter
  | outOfFuel
deriving DecidableEq, Repr

/-! ## The input alphabet (graphs) and the reach path enumerator

`Alph: TypeAlias = "nx.Graph[Location]"`: a graph over location vertices with
distance edge weights.  The read-only interface consumed by the source is
`graph.nodes` and `graph.edges(u, data=attr, default=1.0)`; we model it by a
node list and an adjacency function producing, per vertex, the incident edges
as `(target, attribute table)` pairs, where the attribute table maps an
attribute name to its optional numeric value. -/

/-- An edge as yielded by `graph.edges(u, data=dist_attr, default=1.0)`:
`(u, v, w)`.  The source also stores such triples with a cumulative distance
in third position inside `current_path`. -/
abbrev EdgeT := Location × Location × ℚ

/-- The graph interface (`nx.Graph` is external; this models the two methods
the source uses: `graph.nodes` and `graph.edges(u, data=..., default=1.0)`). -/
structure Alph where
  nodes : List Location
  adjData : Location → List (Location × (String → Option ℚ))

/-- `graph.edges(u, data=dist_attr, default=1.0)`: the edges incident on `u`,
with the value of `dist_attr` and default `1.0` for edges missing it. -/
def getEdges (g : Alph) (dist_attr : String) (u : Location) : List (Location × ℚ) :=
  (g.adjData u).map (fun p => (p.1, (p.2 dist_attr).getD 1))

/-- The depth-first extension loop of `_all_reach_edge_paths` (strel.py
lines 468-502).  The source simulates recursion with an explicit `stack` of
edge iterators and a `current_path` insertion-ordered dict; this is that
recursion written directly:

* `visited` is `current_path.keys()` minus the initial `None` (the nodes on
  the current path, in reverse insertion order);
* `pref` is `list(current_path.values())[2:]` (the entered edges, each stored
  with the cumulative distance in third position, exactly as the source's
  `update_edge = next_edge[:-1] + (new_path_len,)`);
* `cum` is the cumulative distance of the current path, `u` its last node.

For each next edge `(v, w)` of `u` with `v` unvisited (line 472), the path
extended by the raw edge is yielded when `d1 <= new_path_len <= d2`
(lines 488-491), and the search expands through `v` when `new_path_len <= d2`
and some target outside `current_path ∪ {v}` remains (lines 497-501).
`fuel` makes the recursion structural;
every expansion enters a node not yet visited, and edge targets lie in
`g.nodes` for the graphs the automaton consumes, so `g.nodes.length` fuel
(what the wrapper passes) is never exhausted on those graphs. -/
def reachBranch (g : Alph) (d1 : ℚ) (d2 : WithTop ℚ) (visited : List Location)
    (pref : List EdgeT) (cum : ℚ) (u : Location)
    (next : List Location → List EdgeT → ℚ → Location → List (List EdgeT))
    (e : Location × ℚ) : List (List EdgeT) :=
  if e.1 ∈ visited then []
  else
    (if d1 ≤ cum + e.2 ∧ ((cum + e.2 : ℚ) : WithTop ℚ) ≤ d2 then
      [pref ++ [(u, e.1, e.2)]] else []) ++
    (if ((cum + e.2 : ℚ) : WithTop ℚ) ≤ d2 ∧
        g.nodes.any (fun x => x ∉ visited && x ≠ e.1) then
      next (e.1 :: visited) (pref ++ [(u, e.1, cum + e.2)]) (cum + e.2) e.1
    else [])

def reachExtend (g : Alph) (dist_attr : String) (d1 : ℚ) (d2 : WithTop ℚ) :
    ℕ → List Location → List EdgeT → ℚ → Location → List (List EdgeT)
  | 0, _, _, _, _ => []
  | fuel + 1, visited, pref, cum, u =>
    (getEdges g dist_attr u).flatMap
      (reachBranch g d1 d2 visited pref cum u (reachExtend g dist_attr d1 d2 fuel))

/-- `_all_reach_edge_paths(graph, loc, d1, d2, dist_attr)` (strel.py lines
437-502).  The bootstrap dummy edge `(None, loc, 0.0)` always passes the
visited check (`loc not in {None}`), has `new_path_len = 0.0`, yields the
empty path when `d1 <= 0.0 <= d2`, and expands through `loc` when
`0.0 <= d2` and some node other than `loc` remains unexplored.
`d2 = ⊤` models `math.inf`. -/
def allReachEdgePaths (g : Alph) (loc : Location) (d1 : ℚ) (d2 : WithTop ℚ)
    (dist_attr : String) : List (List EdgeT) :=
  (if d1 ≤ 0 ∧ ((0 : ℚ) : WithTop ℚ) ≤ d2 then [[]] else []) ++
  (if ((0 : ℚ) : WithTop ℚ) ≤ d2 ∧ g.nodes.any (fun x => x ≠ loc) then
    reachExtend g dist_attr d1 d2 g.nodes.length [loc] [] 0 loc
  else [])

/-! Specification-side definitions for the enumerator: raw edge paths, their
weights, and the annotated form the enumerator actually emits. -/

/-- `contFrom u visited p` says the raw edge path `p` is a well-formed simple
continuation of the current path: it chains from `u`, each edge is an edge of
the graph (under `dist_attr`, with its raw weight), and its targets are
pairwise distinct and avoid `visited`. -/
def contFrom (g : Alph) (dist_attr : String) : Location → List Location → List EdgeT → Bool
  | _, _, [] => true
  | u, visited, (x, v, w) :: rest =>
    x == u && decide ((v, w) ∈ getEdges g dist_attr x) && !(decide (v ∈ visited)) &&
      contFrom g dist_attr v (v :: visited) rest

/-- The cumulative weight of a raw edge path (sum of raw edge weights). -/
def rawWeight (p : List EdgeT) : ℚ := (p.map (fun e => e.2.2)).sum

/-- The form in which the enumerator emits a raw path whose exploration
started at cumulative distance `c`: every entered edge is stored with the
cumulative distance in third position, while the final edge of the yielded
path is the raw `next_edge` (strel.py line 490). -/
def emittedForm : ℚ → List EdgeT → List EdgeT
  | _, [] => []
  | _, [e] => [e]
  | c, e :: rest => (e.1, e.2.1, c + e.2.2) :: emittedForm (c + e.2.2) rest

/-! ## The Boolean polynomial model

`BooleanPolynomial` over a BDD is external (C1 of the spec's component list);
this is its syntactic model over the Boolean carrier, with variables named by
automaton states.  The source names each declared variable
`str((str(phi), loc))`; canonical keys are identified with expressions (see
the header), so variables are named by `Q` directly. -/

inductive BPoly where
  | top
  | bot
  | var (q : Q)
  | add (p q : BPoly)
  | mul (p q : BPoly)
  | neg (p : BPoly)
deriving DecidableEq, Repr

/-- `manager.const(k)` for the Boolean carrier: `top()` or `bottom()`. -/
def BPoly.const (b : Bool) : BPoly := if b then .top else .bot

/-- `p.eval(mapping)`: grounded evaluation against a finite dict, which
raises `KeyError` when the polynomial mentions a variable the dict does not
cover.  The valuation is a partial function `Q → Option Bool` and the result
is `none` exactly when some mentioned variable is undefined. -/
def BPoly.evalOpt : BPoly → (Q → Option Bool) → Option Bool
  | .top, _ => some true
  | .bot, _ => some false
  | .var q, c => c q
  | .add p q, c => do
      let x ← p.evalOpt c
      let y ← q.evalOpt c
      some (x || y)
  | .mul p q, c => do
      let x ← p.evalOpt c
      let y ← q.evalOpt c
      some (x && y)
  | .neg p, c => (p.evalOpt c).map (fun b => !b)

/-- Proof-internal total variant of `evalOpt` (not an embedding of the
source's dict-based `eval`): used to relate the forward and reverse runs
through the substitution lemma.  `evalOpt_eval_agree` shows it agrees with
`evalOpt` wherever the latter is defined. -/
def BPoly.eval : BPoly → (Q → Bool) → Bool
  | .top, _ => true
  | .bot, _ => false
  | .var q, c => c q
  | .add p q, c => p.eval c || q.eval c
  | .mul p q, c => p.eval c && q.eval c
  | .neg p, c => !(p.eval c)

/-- The substitution step of `StrelAutomaton.next` (`let` is a Lean
keyword): the source first builds the dict `{var: transitions(input,
var_node_map[var]) for var in current.support}` — evaluating the transition
of every variable occurring in the polynomial, so an exception in any of
them aborts the step — and then substitutes it.  Here `σ` computes the
substituent of a variable (`none` for a raised exception), and the result is
`none` exactly when some occurring variable's substituent fails. -/
def BPoly.letSubstOpt : BPoly → (Q → Option BPoly) → Option BPoly
  | .top, _ => some .top
  | .bot, _ => some .bot
  | .var q, σ => σ q
  | .add p q, σ => do
      let x ← p.letSubstOpt σ
      let y ← q.letSubstOpt σ
      some (.add x y)
  | .mul p q, σ => do
      let x ← p.letSubstOpt σ
      let y ← q.letSubstOpt σ
      some (.mul x y)
  | .neg p, σ => (p.letSubstOpt σ).map .neg

/-- Proof-internal total variant of `letSubstOpt` (not an embedding): used
with `BPoly.eval` in the agreement proofs; `letSubstOpt_letSubst_agree`
shows it agrees with `letSubstOpt` wherever the latter is defined. -/
def BPoly.letSubst : BPoly → (Q → BPoly) → BPoly
  | .top, _ => .top
  | .bot, _ => .bot
  | .var q, σ => σ q
  | .add p q, σ => .add (p.letSubst σ) (q.letSubst σ)
  | .mul p q, σ => .mul (p.letSubst σ) (q.letSubst σ)
  | .neg p, σ => .neg (p.letSubst σ)

/-- `p.is_top()`.  On the canonical BDD this is semantic; on the syntactic
model it is constructor equality.  Its only use (the early break of
`check_reach`) returns the accumulated sum either way, so the difference is
semantically invisible. -/
def BPoly.isTop : BPoly → Bool
  | .top => true
  | _ => false

/-! ## The alias map and the transition interpreter -/

/-- The alias rewrites installed by `_add_expr_alias` during compilation,
as a function of the formula (each `_add_expr_alias(phi, alias)` call site
determines `alias` from `phi`'s shape alone, so the alias dict, where
populated, agrees with this function; `Transitions.__call__`/`get_var` chase
one alias step before dispatching).  The match arms mirror the source's
`match phi.interval` order, so e.g. `EventuallyOp` with start `0`/`None` is
untimed or directly expanded, never aliased:

* `_expand_add_globally`: `G[I] a ↦ ¬F[I]¬a` (strel.py line 245);
* `_expand_add_eventually`: `F[t1,∞) a ↦ X[t1] F a` and
  `F[t1,t2] a ↦ X[t1] F[0,t2−t1] a`, `t1 ≥ 1` (lines 284-300; natural-number
  subtraction stands in for Python's `t2 - t1`, which differs only on invalid
  intervals `t2 < t1`, where both compilations install no transition for the
  resulting key);
* `_expand_add_until`: `l U[t1,∞) r ↦ ¬F[0,t1]¬(l U r)` (`t1 ≥ 1`) and
  `l U[t1,t2] r ↦ (F[t1,t2] r) ∧ (l U[t1,∞) r)` (lines 314-333);
* `_expand_add_somewhere`: `somewhere[I] a ↦ true R[I] a` (line 361);
* `_expand_add_everywhere`: `everywhere[I] a ↦ ¬somewhere[I]¬a` (line 367). -/
def aliasTarget : Expr → Option Expr
  | .GloballyOp i a => some (.NotOp (.EventuallyOp i (.NotOp a)))
  | .EventuallyOp (some ⟨some (t1 + 1), none⟩) a =>
      some (.NextOp (some (t1 + 1)) (.EventuallyOp none a))
  | .EventuallyOp (some ⟨some (t1 + 1), some t2⟩) a =>
      some (.NextOp (some (t1 + 1))
        (.EventuallyOp (some ⟨some 0, some (t2 - (t1 + 1))⟩) a))
  | .UntilOp l (some ⟨some (t1 + 1), none⟩) r =>
      some (.NotOp (.EventuallyOp (some ⟨some 0, some (t1 + 1)⟩)
        (.NotOp (.UntilOp l none r))))
  | .UntilOp l (some ⟨some t1, some t2⟩) r =>
      some (.AndOp (.EventuallyOp (some ⟨some t1, some t2⟩) r)
        (.UntilOp l (some ⟨some t1, none⟩) r))
  | .SomewhereOp i a => some (.ReachOp (.Constant true) i a)
  | .EverywhereOp i a => some (.NotOp (.SomewhereOp i (.NotOp a)))
  | _ => none

/-- The single alias chase at the head of `Transitions.__call__` and
`Transitions.get_var` (strel.py lines 50-51, 64-65): `if state[0] in
self.aliases: state = (self.aliases[state[0]], state[1])`.  Alias targets are
never themselves aliased, so one step suffices (spec invariant I4). -/
def deref (ψ : Expr) : Expr := (aliasTarget ψ).getD ψ

/-- `Transitions.get_var(state)` (strel.py lines 63-71): chase one alias, map
`Constant` to `top`/`bottom`, and otherwise look the state up in
`const_mapping` — a dict access that raises `KeyError` (`none`) when the
compiler never declared the state.  `decl` is the declared key set (the
`const_mapping` keys); compiled runs can hit the `none` branch, e.g. reverse
`check_run` after compiling `F[2,2] p` looks up the never-declared
`(F[0,0] p, ℓ)`. -/
def getVarPoly (decl : List Q) (q : Q) : Option BPoly :=
  match deref q.1 with
  | .Constant true => some .top
  | .Constant false => some .bot
  | χ => if (χ, q.2) ∈ decl then some (.var (χ, q.2)) else none

/-- `d1 = phi.interval.start or 0.0` (strel.py line 336): Python `or`
replaces the falsy values `None` and `0.0` by `0.0`. -/
def resolveD1 (s : Option ℚ) : ℚ :=
  match s with
  | none => 0
  | some x => if x = 0 then 0 else x

/-- `d2 = phi.interval.end or math.inf` (strel.py line 337): Python `or`
replaces the falsy values `None` and `0.0` by `math.inf` (here `⊤`). -/
def resolveD2 (e : Option ℚ) : WithTop ℚ :=
  match e with
  | none => ⊤
  | some x => if x = 0 then ⊤ else (x : WithTop ℚ)

/-- `LabellingFn: TypeAlias = Callable[[Alph, Location, str], K]`, Boolean
carrier. -/
abbrev LabelFn := Alph → Location → String → Bool

/-- The accumulation loop of `check_reach` (strel.py lines 343-355):
`expr = bottom(); for edge_path in paths: expr += path_expr(edge_path);
if expr.is_top(): return expr`; an exception while building a path
expression propagates out of the loop (`none`). -/
def reachAccum (f : List EdgeT → Option BPoly) : BPoly → List (List EdgeT) → Option BPoly
  | acc, [] => some acc
  | acc, p :: rest => do
    let pe ← f p
    let acc2 := acc.add pe
    if acc2.isTop then some acc2 else reachAccum f acc2 rest

/-- The one-step symbolic transition `Transitions.__call__(input, (ψ, ℓ))`
(strel.py lines 49-61) composed with the closures installed by the
`_expand_add_*` methods, written as a single interpreter by recursion on the
formula (the closures call `self._transitions(...)` late-bound against the
finished table, and the closure installed at a key is determined by the key's
formula):

* alias chase, `Constant`, `Identifier`: lines 50-59 (returned before any
  dict lookup);
* every other shape first performs `fn = self.transitions[state]` (line 60)
  on the chased state — a dict access that raises `KeyError` (`none`) when
  the key was never installed; `trans` is the installed key set and `decl`
  the declared key set (for `get_var`);
* `NotOp`/`AndOp`/`OrOp`: the closures of `visit` lines 387-405;
* `NextOp(i, a)`: `_expand_add_next` installs `X[i] a ↦ var (X[i−1] a)` for
  `i ≥ 2` and `X[1] a ↦ var a` (lines 233-241); the keys `X[0] a` and
  `X[None] a` are never installed by any compile pass, so their lookup
  raises (`none`);
* `EventuallyOp`: untimed `F a ↦ δ(a) + var (F a)` (line 261-264);
  `F[0,i] a ↦ δ(a) + var (F[0,i−1] a)` for `i ≥ 2` and
  `F[0,1] a ↦ δ(a) + var a` (lines 265-282); `F[0,0]` and `F[None,t2]` keys
  are never installed (`none`, as above); starts `≥ 1` were chased as
  aliases;
* `UntilOp`: untimed `l U r ↦ δ(r) + δ(l)·var (l U r)` (lines 306-313);
  timed starts were chased as aliases; `U[None,t2]` matches no case of
  `_expand_add_until`, so its key is never installed (`none`);
* `ReachOp`: `check_reach` (lines 335-357) over the enumerated paths, with
  exceptions from the inner transition evaluations propagating out;
* `GloballyOp`/`SomewhereOp`/`EverywhereOp` are always aliased, so the chase
  never leaves them (unreachable arms), and `EscapeOp` never compiles, so
  its key is never installed (`none`).

`fuel` is decremented at every recursive call; the wrapper's `muExpr ψ + 1`
dominates the recursion depth. -/
def evalTransF (lfn : LabelFn) (dist_attr : String) (g : Alph)
    (decl trans : List Q) : ℕ → Expr → Location → Option BPoly
  | 0, _, _ => none
  | fuel + 1, ψ, ℓ =>
    match deref ψ with
    | .Constant b => some (BPoly.const b)
    | .Identifier n => some (BPoly.const (lfn g ℓ n))
    | .NotOp a =>
        if (Expr.NotOp a, ℓ) ∈ trans then
          (evalTransF lfn dist_attr g decl trans fuel a ℓ).map .neg
        else none
    | .AndOp l r =>
        if (Expr.AndOp l r, ℓ) ∈ trans then do
          let x ← evalTransF lfn dist_attr g decl trans fuel l ℓ
          let y ← evalTransF lfn dist_attr g decl trans fuel r ℓ
          some (.mul x y)
        else none
    | .OrOp l r =>
        if (Expr.OrOp l r, ℓ) ∈ trans then do
          let x ← evalTransF lfn dist_attr g decl trans fuel l ℓ
          let y ← evalTransF lfn dist_attr g decl trans fuel r ℓ
          some (.add x y)
        else none
    | .NextOp (some (n + 2)) a =>
        if (Expr.NextOp (some (n + 2)) a, ℓ) ∈ trans then
          getVarPoly decl (.NextOp (some (n + 1)) a, ℓ)
        else none
    | .NextOp (some 1) a =>
        if (Expr.NextOp (some 1) a, ℓ) ∈ trans then getVarPoly decl (a, ℓ)
        else none
    | .NextOp (some 0) _ => none
    | .NextOp none _ => none
    | .EventuallyOp none a =>
        if (Expr.EventuallyOp none a, ℓ) ∈ trans then do
          let x ← evalTransF lfn dist_attr g decl trans fuel a ℓ
          let v ← getVarPoly decl (.EventuallyOp none a, ℓ)
          some (.add x v)
        else none
    | .EventuallyOp (some ⟨none, none⟩) a =>
        if (Expr.EventuallyOp (some ⟨none, none⟩) a, ℓ) ∈ trans then do
          let x ← evalTransF lfn dist_attr g decl trans fuel a ℓ
          let v ← getVarPoly decl (.EventuallyOp (some ⟨none, none⟩) a, ℓ)
          some (.add x v)
        else none
    | .EventuallyOp (some ⟨some 0, none⟩) a =>
        if (Expr.EventuallyOp (some ⟨some 0, none⟩) a, ℓ) ∈ trans then do
          let x ← evalTransF lfn dist_attr g decl trans fuel a ℓ
          let v ← getVarPoly decl (.EventuallyOp (some ⟨some 0, none⟩) a, ℓ)
          some (.add x v)
        else none
    | .EventuallyOp (some ⟨some 0, some (t + 2)⟩) a =>
        if (Expr.EventuallyOp (some ⟨some 0, some (t + 2)⟩) a, ℓ) ∈ trans then do
          let x ← evalTransF lfn dist_attr g decl trans fuel a ℓ
          let v ← getVarPoly decl (.EventuallyOp (some ⟨some 0, some (t + 1)⟩) a, ℓ)
          some (.add x v)
        else none
    | .EventuallyOp (some ⟨some 0, some 1⟩) a =>
        if (Expr.EventuallyOp (some ⟨some 0, some 1⟩) a, ℓ) ∈ trans then do
          let x ← evalTransF lfn dist_attr g decl trans fuel a ℓ
          let v ← getVarPoly decl (a, ℓ)
          some (.add x v)
        else none
    | .EventuallyOp (some ⟨some 0, some 0⟩) _ => none
    | .EventuallyOp (some ⟨none, some _⟩) _ => none
    | .EventuallyOp (some ⟨some (_ + 1), _⟩) _ => none
    | .UntilOp l none r =>
        if (Expr.UntilOp l none r, ℓ) ∈ trans then do
          let y ← evalTransF lfn dist_attr g decl trans fuel r ℓ
          let x ← evalTransF lfn dist_attr g decl trans fuel l ℓ
          let v ← getVarPoly decl (.UntilOp l none r, ℓ)
          some (.add y (.mul x v))
        else none
    | .UntilOp l (some ⟨some 0, none⟩) r =>
        if (Expr.UntilOp l (some ⟨some 0, none⟩) r, ℓ) ∈ trans then do
          let y ← evalTransF lfn dist_attr g decl trans fuel r ℓ
          let x ← evalTransF lfn dist_attr g decl trans fuel l ℓ
          let v ← getVarPoly decl (.UntilOp l (some ⟨some 0, none⟩) r, ℓ)
          some (.add y (.mul x v))
        else none
    | .UntilOp l (some ⟨none, none⟩) r =>
        if (Expr.UntilOp l (some ⟨none, none⟩) r, ℓ) ∈ trans then do
          let y ← evalTransF lfn dist_attr g decl trans fuel r ℓ
          let x ← evalTransF lfn dist_attr g decl trans fuel l ℓ
          let v ← getVarPoly decl (.UntilOp l (some ⟨none, none⟩) r, ℓ)
          some (.add y (.mul x v))
        else none
    | .UntilOp _ (some ⟨some (_ + 1), none⟩) _ => none
    | .UntilOp _ (some ⟨some _, some _⟩) _ => none
    | .UntilOp _ (some ⟨none, some _⟩) _ => none
    | .ReachOp l i r =>
        if (Expr.ReachOp l i r, ℓ) ∈ trans then
          reachAccum (fun edge_path =>
            let path : List Location := ℓ :: edge_path.map (fun e => e.2.1)
            do
              let start ← evalTransF lfn dist_attr g decl trans fuel r
                (path.getLast (List.cons_ne_nil _ _))
              (path.dropLast.reverse).foldlM
                (fun path_expr l_p =>
                  (evalTransF lfn dist_attr g decl trans fuel l l_p).map
                    (fun t => path_expr.mul t))
                start)
            .bot
            (allReachEdgePaths g ℓ (resolveD1 i.istart) (resolveD2 i.iend) dist_attr)
        else none
    | .GloballyOp _ _ => none
    | .SomewhereOp _ _ => none
    | .EverywhereOp _ _ => none
    | .EscapeOp _ _ => none

/-! ## The compiler (`_ExprMapper.visit`) -/

/-- The mutable compiler state tracked by the model: the key sets of
`_transitions.const_mapping` (also `expr_var_map`, whose value at a key is
the declared variable `var key`) and of `_transitions.transitions` (whose
value at a key is interpreted by `evalTransF`).  The `aliases` dict is
determined by `aliasTarget`, and `var_node_map` maps each declared or aliased
key's canonical name to the key itself, so neither carries information
beyond its domain; the claims under verification concern the two key sets. -/
structure CState where
  constMapping : List Q
  transitions : List Q
deriving DecidableEq, Repr

/-- `dict.setdefault(k, v)` on a key set: insert `k` if absent. -/
def setdefaultKey (k : Q) (l : List Q) : List Q := if k ∈ l then l else l ++ [k]

/-- `_ExprMapper._add_transition(phi, transition)` (strel.py lines 214-222):
for each `loc in range(max_locs)`, `setdefault` the key `(phi, loc)` into
`expr_var_map` (declaring its variable) and into `transitions`. -/
def addTransitionKeys (N : ℕ) (φ : Expr) (st : CState) : CState :=
  (List.range N).foldl (fun s loc =>
    { constMapping := setdefaultKey (φ, loc) s.constMapping,
      transitions := setdefaultKey (φ, loc) s.transitions }) st

/-- A Python value that can appear in the compiler's membership test
`str(phi) in self.expr_var_map.keys()` (strel.py line 379): the probe is a
`str`, the keys are `(Expr, Location)` tuples. -/
inductive PyVal where
  | pstr (s : String)
  | ppair (q : Q)

/-- Python `==` between such values: `str.__eq__(tuple)` is `NotImplemented`
and `in` falls back to `False`; values of the same type compare normally. -/
def pyEq : PyVal → PyVal → Bool
  | .pstr a, .pstr b => a == b
  | .ppair a, .ppair b => a == b
  | _, _ => false

/-- `str(phi)`: the canonical string key of a formula (the external AST's
`__str__`; any printer works here because the only place the model needs the
string — the visit guard — never compares it against another string). -/
def strKey (φ : Expr) : String := toString (repr φ)

/-- The visit guard `if str(phi) in self.expr_var_map.keys(): return`
(strel.py lines 378-380): membership of the string `str(phi)` in the key
view of a dict keyed by `(Expr, Location)` tuples. -/
def visitGuard (φ : Expr) (keys : List Q) : Bool :=
  keys.any (fun q => pyEq (.pstr (strKey φ)) (.ppair q))

/-- `range(steps, 1, -1)`: the descending list `[steps, ..., 2]`. -/
def descRange (steps : ℕ) : List ℕ := (List.range' 2 (steps - 1)).reverse

/-- `range(t2, 0, -1)`: the descending list `[t2, ..., 1]`. -/
def descRange1 (t2 : ℕ) : List ℕ := (List.range' 1 t2).reverse

/-- `_ExprMapper.visit(phi)` (strel.py lines 377-434) together with the
`_expand_add_*` expansion methods, tracking the two key sets and the raised
exceptions.  Structure, mirroring the source:

* the (never-firing) guard of lines 378-380;
* `Identifier`, `NotOp`, `AndOp`, `OrOp`, `ReachOp`: visit children, then
  `_add_transition(phi, ...)`;
* `EverywhereOp`: visit the argument, run `_expand_add_everywhere` (which
  visits the rewrite and installs the alias), then `raise
  NotImplementedError()` (line 410);
* `SomewhereOp`/`GloballyOp`: visit the argument, then visit the rewrite and
  install the alias;
* `EscapeOp`: visit the argument, then `raise NotImplementedError("We
  currently don't support escape")` (line 417);
* `NextOp`: visit the argument; `_expand_add_next` installs `NextOp(i, arg)`
  for `i in range(steps, 1, -1)` and then `NextOp(1, arg)`;
* `EventuallyOp`: visit the argument; `_expand_add_eventually` installs the
  untimed transition, or the `F[0,i]` chain for `i in range(t2, 0, -1)` (the
  source's first, effect-free copy of that loop is omitted — the spec notes
  it is redundant), or visits the `NextOp` rewrite and aliases;
* `UntilOp`: visit both children; `_expand_add_until` installs the untimed
  transition or visits the rewrite and aliases; a `TimeInterval(None, t2)`
  interval matches no case, so nothing is installed;
* `Constant`: no case of the source's `match` — nothing happens.

`fuel` is decremented at every recursive call; the wrapper's `muExpr φ + 1`
dominates the recursion depth. -/
def visitF (N : ℕ) : ℕ → CState → Expr → Except Err CState
  | 0, _, _ => .error .outOfFuel
  | fuel + 1, st, φ =>
    if visitGuard φ st.constMapping then .ok st
    else
      match φ with
      | .Constant _ => .ok st
      | .Identifier _ => .ok (addTransitionKeys N φ st)
      | .NotOp a => do
          let st1 ← visitF N fuel st a
          .ok (addTransitionKeys N φ st1)
      | .AndOp l r => do
          let st1 ← visitF N fuel st l
          let st2 ← visitF N fuel st1 r
          .ok (addTransitionKeys N φ st2)
      | .OrOp l r => do
          let st1 ← visitF N fuel st l
          let st2 ← visitF N fuel st1 r
          .ok (addTransitionKeys N φ st2)
      | .EverywhereOp i a => do
          let st1 ← visitF N fuel st a
          let _ ← visitF N fuel st1 (.NotOp (.SomewhereOp i (.NotOp a)))
          .error .everywhereNotImpl
      | .SomewhereOp i a => do
          let st1 ← visitF N fuel st a
          visitF N fuel st1 (.ReachOp (.Constant true) i a)
      | .EscapeOp _ a => do
          let _ ← visitF N fuel st a
          .error .escapeNotImpl
      | .ReachOp l _ r => do
          let st1 ← visitF N fuel st l
          let st2 ← visitF N fuel st1 r
          .ok (addTransitionKeys N φ st2)
      | .NextOp s a => do
          let st1 ← visitF N fuel st a
          let st2 := (descRange (s.getD 1)).foldl
            (fun acc i => addTransitionKeys N (.NextOp (some i) a) acc) st1
          .ok (addTransitionKeys N (.NextOp (some 1) a) st2)
      | .GloballyOp i a => do
          let st1 ← visitF N fuel st a
          visitF N fuel st1 (.NotOp (.EventuallyOp i (.NotOp a)))
      | .EventuallyOp i a => do
          let st1 ← visitF N fuel st a
          match i with
          | none | some ⟨none, none⟩ | some ⟨some 0, none⟩ =>
              .ok (addTransitionKeys N φ st1)
          | some ⟨none, some t2⟩ | some ⟨some 0, some t2⟩ =>
              .ok ((descRange1 t2).foldl (fun acc i2 =>
                addTransitionKeys N (.EventuallyOp (some ⟨some 0, some i2⟩) a) acc) st1)
          | some ⟨some (t1 + 1), none⟩ =>
              visitF N fuel st1 (.NextOp (some (t1 + 1)) (.EventuallyOp none a))
          | some ⟨some (t1 + 1), some t2⟩ =>
              visitF N fuel st1 (.NextOp (some (t1 + 1))
                (.EventuallyOp (some ⟨some 0, some (t2 - (t1 + 1))⟩) a))
      | .UntilOp l i r => do
          let st1 ← visitF N fuel st l
          let st2 ← visitF N fuel st1 r
          match i with
          | none | some ⟨some 0, none⟩ | some ⟨none, none⟩ =>
              .ok (addTransitionKeys N φ st2)
          | some ⟨some (t1 + 1), none⟩ =>
              visitF N fuel st2 (.NotOp (.EventuallyOp (some ⟨some 0, some (t1 + 1)⟩)
                (.NotOp (.UntilOp l none r))))
          | some ⟨some t1, some t2⟩ =>
              visitF N fuel st2 (.AndOp (.EventuallyOp (some ⟨some t1, some t2⟩) r)
                (.UntilOp l (some ⟨some t1, none⟩) r))
          | some ⟨none, some _⟩ => .ok st2

/-- The termination measure of the compilation and transition recursions: it
strictly decreases along every structural and rewrite call edge, so
`muExpr φ + 1` fuel is never exhausted by the wrappers.  (The weights are
only used to size the fuel; nothing is proved about them.) -/
def evWeight : Option TimeInterval → ℕ
  | some ⟨some (_ + 1), _⟩ => 2
  | _ => 0

def unWeight : Option TimeInterval → ℕ
  | some ⟨some (_ + 1), none⟩ => 4
  | some ⟨some _, some _⟩ => 9
  | _ => 0

def unCoeff : Option TimeInterval → ℕ
  | some ⟨some _, some _⟩ => 2
  | _ => 1

def muExpr : Expr → ℕ
  | .Constant _ => 1
  | .Identifier _ => 1
  | .NotOp a => muExpr a + 1
  | .AndOp l r => muExpr l + muExpr r + 1
  | .OrOp l r => muExpr l + muExpr r + 1
  | .NextOp _ a => muExpr a + 1
  | .EventuallyOp i a => muExpr a + evWeight i + 1
  | .GloballyOp i a => muExpr a + evWeight i + 4
  | .UntilOp l i r => muExpr l + unCoeff i * muExpr r + unWeight i + 1
  | .SomewhereOp _ a => muExpr a + 3
  | .EverywhereOp _ a => muExpr a + 6
  | .ReachOp l _ r => muExpr l + muExpr r + 1
  | .EscapeOp _ a => muExpr a + 1

/-! ## The automaton (`StrelAutomaton`) and the runner -/

/-- `_is_accepting(expr)` (strel.py lines 113-118): `expr` is a `NotOp` whose
argument is an `UntilOp` or `EventuallyOp` with `interval is None` or an
untimed interval, or `expr == self.initial_expr`. -/
def isAcceptingExpr (initial : Expr) (e : Expr) : Bool :=
  (match e with
   | .NotOp (.UntilOp _ none _) => true
   | .NotOp (.UntilOp _ (some iv) _) => iv.is_untimed
   | .NotOp (.EventuallyOp none _) => true
   | .NotOp (.EventuallyOp (some iv) _) => iv.is_untimed
   | _ => false) || e == initial

/-- `self.dist_attr = dist_attr or "weight"` (strel.py line 195): Python `or`
replaces the falsy values `None` and `""` by `"weight"`. -/
def mapperDistAttr (dist_attr : Option String) : String :=
  match dist_attr with
  | none => "weight"
  | some s => if s = "" then "weight" else s

/-- The `assert set(transitions.transitions.keys()) ==
set(transitions.const_mapping.keys())` of `StrelAutomaton.__init__`
(line 105): set equality of the key lists. -/
def listSetEq (a b : List Q) : Bool := a.all (fun x => x ∈ b) && b.all (fun x => x ∈ a)

/-- The compiled automaton.  `label_fn` and the polynomial manager carry no
data relevant to the claims (the manager is the `BPoly` model and `label_fn`
is passed to the runner), so the structure holds the initial expression, the
two key sets, the accepting set computed at construction, `max_locs` and the
resolved distance attribute. -/
structure StrelAutomaton where
  initial_expr : Expr
  const_mapping : List Q
  transitions : List Q
  accepting_states : List Q
  max_locs : ℕ
  dist_attr : String
deriving DecidableEq, Repr

/-- `StrelAutomaton.states`: `self._transitions.const_mapping.keys()`
(strel.py lines 136-138). -/
def StrelAutomaton.states (A : StrelAutomaton) : List Q := A.const_mapping

/-- `StrelAutomaton.from_strel_expr` (strel.py lines 147-163) together with
`_ExprMapper.__init__` (the `assert max_locs > 0`, line 193; the distance
attribute resolution, line 195) and `StrelAutomaton.__init__` (the key-set
assert, line 105; the `next(iter(const_mapping.values()))` that raises on an
empty table, line 111; the accepting-state computation over
`transitions.transitions.keys()`, lines 113-120). -/
def fromStrelExpr (φ : Expr) (N : ℕ) (dist_attr : Option String) :
    Except Err StrelAutomaton :=
  if N = 0 then .error .assertionError
  else
    match visitF N (muExpr φ + 1) { constMapping := [], transitions := [] } φ with
    | .error e => .error e
    | .ok st =>
      if listSetEq st.transitions st.constMapping = false then .error .assertionError
      else if st.constMapping = [] then .error .emptyMapping
      else .ok
        { initial_expr := φ
          const_mapping := st.constMapping
          transitions := st.transitions
          accepting_states := st.transitions.filter (fun q => isAcceptingExpr φ q.1)
          max_locs := N
          dist_attr := mapperDistAttr dist_attr }

/-- `make_bool_automaton(phi, label_fn, max_locs, dist_attr="hop")` (strel.py
lines 74-93): a caller who omits `dist_attr` gets the parameter default
`"hop"`, which is then passed to `from_strel_expr`. -/
def makeBoolAutomaton (φ : Expr) (N : ℕ) (dist_attr : Option String) :
    Except Err StrelAutomaton :=
  fromStrelExpr φ N (some (dist_attr.getD "hop"))

/-- The transition interpreter at its standard fuel; `none` is a raised
`KeyError`. -/
def evalTransTop (lfn : LabelFn) (dist_attr : String) (g : Alph)
    (decl trans : List Q) (ψ : Expr) (ℓ : Location) : Option BPoly :=
  evalTransF lfn dist_attr g decl trans (muExpr ψ + 1) ψ ℓ

/-- `StrelAutomaton.final_mapping` (strel.py lines 126-134): a dict over
exactly `self.states` (the `const_mapping` keys), assigning `⊤.eval({})`
(`true`) to accepting states and `⊥.eval({})` (`false`) to the rest;
evaluating a polynomial against it raises on variables outside `states`. -/
def finalMapping (A : StrelAutomaton) : Q → Option Bool :=
  fun q =>
    if q ∈ A.const_mapping then some (decide (q ∈ A.accepting_states)) else none

/-- `StrelAutomaton.initial_at(loc)` (strel.py lines 122-124):
`get_var((initial_expr, loc))`; raises (`none`) when the (chased) initial
state was never declared. -/
def initialAt (A : StrelAutomaton) (loc : Location) : Option BPoly :=
  getVarPoly A.const_mapping (A.initial_expr, loc)

/-- `StrelAutomaton.next(input, current)` (strel.py lines 140-145): build
`{var: transitions(input, var_node_map[var]) for var in current.support}` —
the comprehension evaluates the transition of every support variable, and
an exception there aborts the step — then substitute it into the state
polynomial.  Each declared variable names its own state (`var_node_map`),
and `letSubstOpt` queries exactly the occurring variables, which are the
support. -/
def nextPoly (lfn : LabelFn) (dist_attr : String) (g : Alph)
    (decl trans : List Q) (p : BPoly) : Option BPoly :=
  p.letSubstOpt (fun q => evalTransTop lfn dist_attr g decl trans q.1 q.2)

/-- One step of the reverse cost loop (strel.py line 171): `new_costs =
{_make_q_str(q): self.transitions(input, q).eval(costs) for q in
self.states}`.  The comprehension computes an entry for every state; an
exception in any entry (a `KeyError` from the transition lookup, `get_var`,
or the `eval`) aborts the whole step, hence the outer `Option`. -/
def revCostsStep (lfn : LabelFn) (dist_attr : String) (g : Alph)
    (decl trans states : List Q) (costs : Q → Option Bool) :
    Option (Q → Option Bool) :=
  if states.all (fun q =>
      ((evalTransTop lfn dist_attr g decl trans q.1 q.2).bind
        (fun P => P.evalOpt costs)).isSome) then
    some (fun q =>
      if q ∈ states then
        (evalTransTop lfn dist_attr g decl trans q.1 q.2).bind
          (fun P => P.evalOpt costs)
      else none)
  else none

/-- The reverse cost loop (strel.py lines 169-172): starting from
`final_mapping`, apply `revCostsStep` for each input in reversed order. -/
def revCosts (A : StrelAutomaton) (lfn : LabelFn) :
    List Alph → Option (Q → Option Bool)
  | [] => some (finalMapping A)
  | g :: tr => do
      let costs ← revCosts A lfn tr
      revCostsStep lfn A.dist_attr g A.const_mapping A.transitions
        A.const_mapping costs

/-- `StrelAutomaton.check_run(ego_location, trace, reverse_order)` (strel.py
lines 165-180); `none` is a raised exception.  Forward: the initial
polynomial, one `next` per input, then evaluation against `final_mapping`.
Reverse: the cost loop over the reversed trace, then the initial polynomial
evaluated against the final costs (`initial_at` runs after the loop, line
173). -/
def checkRun (A : StrelAutomaton) (lfn : LabelFn) (ego_location : Location)
    (trace : List Alph) (reverse_order : Bool) : Option Bool :=
  if reverse_order then do
    let costs ← revCosts A lfn trace
    let p0 ← initialAt A ego_location
    p0.evalOpt costs
  else do
    let p0 ← initialAt A ego_location
    let pT ← trace.foldlM
      (fun s g => nextPoly lfn A.dist_attr g A.const_mapping A.transitions s) p0
    pT.evalOpt (finalMapping A)

/-! ## Spec-modelled constructor validation and claim-level predicates -/

/-- Modelled from the spec: the STREL AST constructors live in
`automatix.logic.strel`, which is not under `src/`; the spec states
"`NextOp(0, α)` is forbidden; steps ≥ 1" and lists
"`CompileError(InvalidParameter)`: ... Next with steps ≤ 0" among the raised
errors (the compiler itself, strel.py lines 227-241, performs no such check).
`mkNextOp` is that constructor validation. -/
def mkNextOp (steps : ℤ) (arg : Expr) : Except Err Expr :=
  if steps ≤ 0 then .error .invalidParameter
  else .ok (.NextOp (some steps.toNat) arg)

/-- Building a `NextOp` formula and compiling it: the pipeline a caller of
the compiler runs on `NextOp(steps, α)`. -/
def compileNextFormula (steps : ℤ) (arg : Expr) (N : ℕ) (dist_attr : Option String) :
    Except Err StrelAutomaton :=
  mkNextOp steps arg >>= fun φ => fromStrelExpr φ N dist_attr

/-- The formula contains an `EscapeOp` subformula. -/
def containsEscape : Expr → Bool
  | .EscapeOp _ _ => true
  | .Constant _ => false
  | .Identifier _ => false
  | .NotOp a => containsEscape a
  | .NextOp _ a => containsEscape a
  | .EventuallyOp _ a => containsEscape a
  | .GloballyOp _ a => containsEscape a
  | .SomewhereOp _ a => containsEscape a
  | .EverywhereOp _ a => containsEscape a
  | .AndOp l r => containsEscape l || containsEscape r
  | .OrOp l r => containsEscape l || containsEscape r
  | .ReachOp l _ r => containsEscape l || containsEscape r
  | .UntilOp l _ r => containsEscape l || containsEscape r

/-- The formula contains an `EverywhereOp` subformula. -/
def containsEverywhere : Expr → Bool
  | .EverywhereOp _ _ => true
  | .Constant _ => false
  | .Identifier _ => false
  | .NotOp a => containsEverywhere a
  | .NextOp _ a => containsEverywhere a
  | .EventuallyOp _ a => containsEverywhere a
  | .GloballyOp _ a => containsEverywhere a
  | .SomewhereOp _ a => containsEverywhere a
  | .EscapeOp _ a => containsEverywhere a
  | .AndOp l r => containsEverywhere l || containsEverywhere r
  | .OrOp l r => containsEverywhere l || containsEverywhere r
  | .ReachOp l _ r => containsEverywhere l || containsEverywhere r
  | .UntilOp l _ r => containsEverywhere l || containsEverywhere r

/-- The fragment of claim C2: formulas built from atoms with `NotOp`,
`AndOp`, `OrOp`, `NextOp`, `EventuallyOp` with a finite upper time bound,
`ReachOp`, `SomewhereOp` and `EverywhereOp`. -/
def isFragment : Expr → Bool
  | .Constant _ => true
  | .Identifier _ => true
  | .NotOp a => isFragment a
  | .AndOp l r => isFragment l && isFragment r
  | .OrOp l r => isFragment l && isFragment r
  | .NextOp _ a => isFragment a
  | .EventuallyOp (some ⟨_, some _⟩) a => isFragment a
  | .EventuallyOp _ _ => false
  | .GloballyOp _ _ => false
  | .UntilOp _ _ _ => false
  | .ReachOp l _ r => isFragment l && isFragment r
  | .SomewhereOp _ a => isFragment a
  | .EverywhereOp _ a => isFragment a
  | .EscapeOp _ _ => false

/-- Decidable equality of compilation outcomes (for evaluating the model on
concrete inputs). -/
instance instDecEqExcept {ε α : Type} [DecidableEq ε] [DecidableEq α] :
    DecidableEq (Except ε α) := fun x y =>
  match x, y with
  | .error a, .error b =>
      if h : a = b then .isTrue (by rw [h]) else .isFalse (fun hc => h (by injection hc))
  | .ok a, .ok b =>
      if h : a = b then .isTrue (by rw [h]) else .isFalse (fun hc => h (by injection hc))
  | .error _, .ok _ => .isFalse (fun hc => by injection hc)
  | .ok _, .error _ => .isFalse (fun hc => by injection hc)

/-! ## Concrete objects used by the witnesses -/

/-- A two-vertex graph `0 —(2)— 1` whose single undirected edge has weight
`2` under every attribute name. -/
def twoNodeGraph : Alph where
  nodes := [0, 1]
  adjData := fun u =>
    match u with
    | 0 => [(1, fun _ => some 2)]
    | 1 => [(0, fun _ => some 2)]
    | _ => []

/-- A labelling function: predicate `"p"` holds exactly at location `0`. -/
def pAtZero : LabelFn := fun _ ℓ n => n == "p" && decide (ℓ = 0)

/-! ### Lemmas about the enumerator -/

theorem emittedForm_length (c : ℚ) (p : List EdgeT) : (emittedForm c p).length = p.length := by
  induction p generalizing c with
  | nil => rfl
  | cons e rest ih =>
    cases rest with
    | nil => rfl
    | cons f rest2 => simpa [emittedForm] using ih _

/-- Every member of `reachExtend` strictly extends the accumulated prefix. -/
theorem reachExtend_extends (g : Alph) (dist_attr : String) (d1 : ℚ) (d2 : WithTop ℚ) :
    ∀ (fuel : ℕ) (visited : List Location) (pref : List EdgeT) (cum : ℚ) (u : Location)
      (p : List EdgeT), p ∈ reachExtend g dist_attr d1 d2 fuel visited pref cum u →
      ∃ s, s ≠ [] ∧ p = pref ++ s := by
  intro fuel
  induction fuel with
  | zero => intro _ _ _ _ p hp; simp [reachExtend] at hp
  | succ fuel ih =>
    intro visited pref cum u p hp
    simp only [reachExtend, reachBranch, List.mem_flatMap] at hp
    obtain ⟨e, _, hp⟩ := hp
    split at hp
    · simp at hp
    · rw [List.mem_append] at hp
      rcases hp with hp | hp
      · split at hp
        · simp only [List.mem_singleton] at hp
          exact ⟨[(u, e.1, e.2)], by simp, hp⟩
        · simp at hp
      · split at hp
        · obtain ⟨s, hs, rfl⟩ := ih _ _ _ _ p hp
          exact ⟨(u, e.1, cum + e.2) :: s, by simp, by simp⟩
        · simp at hp

theorem length_filter_mono {α : Type} (p q : α → Bool) (l : List α)
    (h : ∀ x, p x = true → q x = true) :
    (l.filter p).length ≤ (l.filter q).length := by
  induction l with
  | nil => simp
  | cons a tl ih =>
    by_cases hp : p a = true
    · simp [List.filter_cons, hp, h a hp]; omega
    · simp only [List.filter_cons]
      rw [if_neg (by simpa using hp)]
      split
      · simpa using Nat.le_succ_of_le ih
      · exact ih

theorem length_filter_ne_lt (L : List Location) (v : Location) (hv : v ∈ L) :
    (L.filter (fun x => !decide (x = v))).length < L.length := by
  induction L with
  | nil => simp at hv
  | cons a tl ih =>
    by_cases hav : a = v
    · subst hav
      simp only [List.filter_cons]
      rw [if_neg (by simp)]
      have := List.length_filter_le (fun x => !decide (x = a)) tl
      simp only [List.length_cons]
      omega
    · rcases List.mem_cons.mp hv with h | h
      · exact absurd h.symm hav
      · simp only [List.filter_cons]
        rw [if_pos (by simpa using hav)]
        simp only [List.length_cons]
        exact Nat.succ_lt_succ (ih h)

theorem length_filter_visited_lt (nodes visited : List Location) (v : Location)
    (hv : v ∈ nodes) (hnv : v ∉ visited) :
    (nodes.filter (fun x => !decide (x ∈ v :: visited))).length <
      (nodes.filter (fun x => !decide (x ∈ visited))).length := by
  have hsplit : nodes.filter (fun x => !decide (x ∈ v :: visited)) =
      (nodes.filter (fun x => !decide (x ∈ visited))).filter (fun x => !decide (x = v)) := by
    rw [List.filter_filter]
    apply List.filter_congr
    intro x _
    by_cases h1 : x = v <;> by_cases h2 : x ∈ visited <;> simp [List.mem_cons, h1, h2]
  rw [hsplit]
  apply length_filter_ne_lt
  rw [List.mem_filter]
  exact ⟨hv, by simpa using hnv⟩

/-- All weights along a well-formed continuation are non-negative, provided
edge weights are non-negative on the relevant scope of vertices. -/
theorem contFrom_weight_nonneg (g : Alph) (dist_attr : String) (scope : List Location)
    (hscope : ∀ x ∈ scope, ∀ e ∈ getEdges g dist_attr x, e.1 ∈ g.nodes ∧ 0 ≤ e.2)
    (hsub : ∀ x ∈ g.nodes, x ∈ scope) :
    ∀ (raw : List EdgeT) (u : Location) (visited : List Location), u ∈ scope →
      contFrom g dist_attr u visited raw = true → 0 ≤ rawWeight raw := by
  intro raw
  induction raw with
  | nil => intro u visited _ _; simp [rawWeight]
  | cons e rest ih =>
    obtain ⟨x, v, w⟩ := e
    intro u visited hu hcont
    simp only [contFrom, Bool.and_eq_true, beq_iff_eq, decide_eq_true_eq,
      Bool.not_eq_true', decide_eq_false_iff_not] at hcont
    obtain ⟨⟨⟨hx, hmem⟩, hnv⟩, hrest⟩ := hcont
    have hedge := hscope u hu (v, w) (by rw [← hx]; exact hmem)
    have hv_scope : v ∈ scope := hsub v hedge.1
    have := ih v (v :: visited) hv_scope hrest
    simp only [rawWeight, List.map_cons, List.sum_cons]
    have hw : (0 : ℚ) ≤ w := hedge.2
    calc (0 : ℚ) ≤ w + rawWeight rest := by
          have : (0 : ℚ) + 0 ≤ w + rawWeight rest := add_le_add hw this
          simpa using this
      _ = _ := by simp [rawWeight]

/-- Completeness of the extension loop: every well-formed simple continuation
within the weight bounds is emitted, provided the fuel covers the unvisited
vertices and the graph is well formed on the relevant scope. -/
theorem reachExtend_complete (g : Alph) (dist_attr : String) (d1 : ℚ) (d2 : WithTop ℚ)
    (scope : List Location)
    (hscope : ∀ x ∈ scope, ∀ e ∈ getEdges g dist_attr x, e.1 ∈ g.nodes ∧ 0 ≤ e.2)
    (hsub : ∀ x ∈ g.nodes, x ∈ scope) :
    ∀ (raw : List EdgeT) (fuel : ℕ) (visited : List Location) (pref : List EdgeT)
      (cum : ℚ) (u : Location),
      raw ≠ [] → contFrom g dist_attr u visited raw = true →
      d1 ≤ cum + rawWeight raw → ((cum + rawWeight raw : ℚ) : WithTop ℚ) ≤ d2 →
      u ∈ scope → (g.nodes.filter (fun x => !decide (x ∈ visited))).length ≤ fuel →
      pref ++ emittedForm cum raw ∈ reachExtend g dist_attr d1 d2 fuel visited pref cum u := by
  intro raw
  induction raw with
  | nil => intro _ _ _ _ _ hne; exact absurd rfl hne
  | cons e rest ih =>
    obtain ⟨x, v, w⟩ := e
    intro fuel visited pref cum u _ hcont hd1 hd2 hu hfuel
    simp only [contFrom, Bool.and_eq_true, beq_iff_eq, decide_eq_true_eq,
      Bool.not_eq_true', decide_eq_false_iff_not] at hcont
    obtain ⟨⟨⟨hx, hmem⟩, hnv⟩, hrest⟩ := hcont
    rw [hx] at hmem
    have hedge := hscope u hu (v, w) hmem
    have hvnodes : v ∈ g.nodes := hedge.1
    have hvscope : v ∈ scope := hsub v hvnodes
    -- the fuel is positive because `v` is an unvisited node
    have hpos : 0 < (g.nodes.filter (fun y => !decide (y ∈ visited))).length := by
      have hmemf : v ∈ g.nodes.filter (fun y => !decide (y ∈ visited)) := by
        rw [List.mem_filter]; exact ⟨hvnodes, by simpa using hnv⟩
      exact List.length_pos.mpr (by intro hempty; rw [hempty] at hmemf; simp at hmemf)
    obtain ⟨f, rfl⟩ : ∃ f, fuel = f + 1 := ⟨fuel - 1, by omega⟩
    simp only [reachExtend, reachBranch, List.mem_flatMap]
    refine ⟨(v, w), hmem, ?_⟩
    rw [if_neg (by simpa using hnv)]
    rw [List.mem_append]
    have hrw0 : rawWeight ((x, v, w) :: rest) = w + rawWeight rest := by
      simp [rawWeight]
    cases rest with
    | nil =>
      left
      rw [if_pos ⟨by rw [hrw0] at hd1; simpa [rawWeight] using hd1,
        by rw [hrw0] at hd2; simpa [rawWeight] using hd2⟩]
      simp [emittedForm, hx]
    | cons e2 rest2 =>
      right
      have hcont2 := hrest
      obtain ⟨x2, v2, w2⟩ := e2
      simp only [contFrom, Bool.and_eq_true, beq_iff_eq, decide_eq_true_eq,
        Bool.not_eq_true', decide_eq_false_iff_not] at hcont2
      obtain ⟨⟨⟨hx2, hmem2⟩, hnv2⟩, _⟩ := hcont2
      rw [hx2] at hmem2
      have hv2nodes : v2 ∈ g.nodes := (hscope v hvscope (v2, w2) hmem2).1
      have hwrest : 0 ≤ rawWeight ((x2, v2, w2) :: rest2) :=
        contFrom_weight_nonneg g dist_attr scope hscope hsub _ v (v :: visited) hvscope hrest
      have hassoc : cum + rawWeight ((x, v, w) :: (x2, v2, w2) :: rest2)
          = (cum + w) + rawWeight ((x2, v2, w2) :: rest2) := by
        simp [rawWeight]; ring
      have hcw : ((cum + w : ℚ) : WithTop ℚ) ≤ d2 := by
        refine le_trans ?_ hd2
        rw [WithTop.coe_le_coe, hassoc]
        linarith
      rw [if_pos ?side]
      case side =>
        refine ⟨hcw, ?_⟩
        rw [List.any_eq_true]
        refine ⟨v2, hv2nodes, ?_⟩
        have hv2v : v2 ≠ v := by
          intro h; exact hnv2 (h ▸ List.mem_cons_self v visited)
        have hv2vis : v2 ∉ visited := fun h => hnv2 (List.mem_cons_of_mem _ h)
        simp [hv2vis, hv2v]
      have hstep := ih f (v :: visited) (pref ++ [(u, v, cum + w)]) (cum + w) v
        (by simp) hrest (by rw [hassoc] at hd1; exact hd1) (by rw [hassoc] at hd2; exact hd2)
        hvscope (by
          have := length_filter_visited_lt g.nodes visited v hvnodes hnv
          omega)
      simpa [emittedForm, hx] using hstep

/-- Soundness of the extension loop: every member is the emitted form of a
well-formed simple continuation whose total weight lies in the bounds. -/
theorem reachExtend_sound (g : Alph) (dist_attr : String) (d1 : ℚ) (d2 : WithTop ℚ) :
    ∀ (fuel : ℕ) (visited : List Location) (pref : List EdgeT) (cum : ℚ) (u : Location)
      (p : List EdgeT), p ∈ reachExtend g dist_attr d1 d2 fuel visited pref cum u →
      ∃ raw, raw ≠ [] ∧ contFrom g dist_attr u visited raw = true ∧
        d1 ≤ cum + rawWeight raw ∧ ((cum + rawWeight raw : ℚ) : WithTop ℚ) ≤ d2 ∧
        p = pref ++ emittedForm cum raw := by
  intro fuel
  induction fuel with
  | zero => intro _ _ _ _ p hp; simp [reachExtend] at hp
  | succ fuel ih =>
    intro visited pref cum u p hp
    simp only [reachExtend, reachBranch, List.mem_flatMap] at hp
    obtain ⟨e, he, hp⟩ := hp
    obtain ⟨v, w⟩ := e
    split at hp
    · simp at hp
    · rename_i hnv
      rw [List.mem_append] at hp
      rcases hp with hp | hp
      · split at hp
        · rename_i hcond
          simp only [List.mem_singleton] at hp
          refine ⟨[(u, v, w)], by simp, ?_, ?_, ?_, by simpa [emittedForm] using hp⟩
          · simp [contFrom, hnv, he]
          · simpa [rawWeight] using hcond.1
          · simpa [rawWeight] using hcond.2
        · simp at hp
      · split at hp
        · obtain ⟨raw, hraw, hcont, hd1, hd2, rfl⟩ := ih _ _ _ _ p hp
          refine ⟨(u, v, w) :: raw, by simp, ?_, ?_, ?_, ?_⟩
          · simp [contFrom, hnv, hcont, he]
          · simpa [rawWeight, add_assoc] using hd1
          · simpa [rawWeight, add_assoc] using hd2
          · cases raw with
            | nil => exact absurd rfl hraw
            | cons f rest => simp [emittedForm]
        · simp at hp

/-- The two possible shapes of a member of one edge's branch: the yielded
one-step extension with the raw edge weight, or a longer extension whose first
new entry stores the cumulative distance. -/
theorem reachBranch_shape (g : Alph) (dist_attr : String) (d1 : ℚ) (d2 : WithTop ℚ)
    (fuel : ℕ) (visited : List Location) (pref : List EdgeT) (cum : ℚ) (u : Location)
    (e : Location × ℚ) (p : List EdgeT)
    (hp : p ∈ reachBranch g d1 d2 visited pref cum u
      (reachExtend g dist_attr d1 d2 fuel) e) :
    p = pref ++ [(u, e.1, e.2)] ∨
      ∃ t, t ≠ [] ∧ p = pref ++ (u, e.1, cum + e.2) :: t := by
  unfold reachBranch at hp
  split at hp
  · simp at hp
  · rw [List.mem_append] at hp
    rcases hp with hp | hp
    · split at hp
      · simp only [List.mem_singleton] at hp; exact Or.inl hp
      · simp at hp
    · split at hp
      · obtain ⟨s, hs, rfl⟩ := reachExtend_extends g dist_attr d1 d2 _ _ _ _ _ _ hp
        exact Or.inr ⟨s, hs, by simp⟩
      · simp at hp

/-- No path is emitted twice by the extension loop, provided the edge lists of
the relevant vertices have no duplicates. -/
theorem reachExtend_nodup (g : Alph) (dist_attr : String) (d1 : ℚ) (d2 : WithTop ℚ)
    (scope : List Location)
    (hED : ∀ x ∈ scope, (getEdges g dist_attr x).Nodup)
    (hscope : ∀ x ∈ scope, ∀ e ∈ getEdges g dist_attr x, e.1 ∈ g.nodes ∧ 0 ≤ e.2)
    (hsub : ∀ x ∈ g.nodes, x ∈ scope) :
    ∀ (fuel : ℕ) (visited : List Location) (pref : List EdgeT) (cum : ℚ) (u : Location),
      u ∈ scope → (reachExtend g dist_attr d1 d2 fuel visited pref cum u).Nodup := by
  intro fuel
  induction fuel with
  | zero => intro _ _ _ _ _; simp [reachExtend]
  | succ fuel ih =>
    intro visited pref cum u hu
    show ((getEdges g dist_attr u).flatMap
      (reachBranch g d1 d2 visited pref cum u (reachExtend g dist_attr d1 d2 fuel))).Nodup
    have key : ∀ E : List (Location × ℚ), E.Nodup →
        (∀ e ∈ E, e ∈ getEdges g dist_attr u) →
        (E.flatMap (reachBranch g d1 d2 visited pref cum u
          (reachExtend g dist_attr d1 d2 fuel))).Nodup := by
      intro E
      induction E with
      | nil => intro _ _; simp
      | cons e E2 ihE =>
        intro hnd hmemE
        rw [List.flatMap_cons, List.nodup_append]
        refine ⟨?_, ihE hnd.of_cons (fun x hx => hmemE x (List.mem_cons_of_mem _ hx)), ?_⟩
        · -- one branch has no duplicates
          unfold reachBranch
          split
          · simp
          · rw [List.nodup_append]
            refine ⟨by split <;> simp, ?_, ?_⟩
            · split
              · apply ih
                exact hsub e.1 (hscope u hu e (hmemE e (List.mem_cons_self _ _))).1
              · simp
            · -- the yielded one-step path is shorter than any deeper extension
              intro p hp1 hp2
              split at hp1
              · rename_i hcond
                simp only [List.mem_singleton] at hp1
                split at hp2
                · obtain ⟨s, hs, hps⟩ := reachExtend_extends g dist_attr d1 d2 _ _ _ _ _ _ hp2
                  rw [hp1] at hps
                  have hlen := congrArg List.length hps
                  simp only [List.length_append, List.length_singleton,
                    List.length_cons] at hlen
                  cases s with
                  | nil => exact hs rfl
                  | cons a s2 => simp at hlen
                · simp at hp2
              · simp at hp1
        · -- branches of distinct edges are disjoint
          intro p hp1 hp2
          simp only [List.mem_flatMap] at hp2
          obtain ⟨e2, he2, hp2⟩ := hp2
          have hne : e ≠ e2 := by
            intro h; rw [h] at hnd; exact (List.nodup_cons.mp hnd).1 he2
          have hs1 := reachBranch_shape g dist_attr d1 d2 fuel visited pref cum u e p hp1
          have hs2 := reachBranch_shape g dist_attr d1 d2 fuel visited pref cum u e2 p hp2
          rcases hs1 with h1 | ⟨t1, ht1, h1⟩ <;> rcases hs2 with h2 | ⟨t2, ht2, h2⟩
          · rw [h1] at h2
            have hc := List.append_cancel_left h2
            simp only [List.cons.injEq, Prod.mk.injEq, and_true, true_and] at hc
            exact hne (Prod.ext hc.1 hc.2)
          · rw [h1] at h2
            have hc := List.append_cancel_left h2
            have hlen := congrArg List.length hc
            cases t2 with
            | nil => exact ht2 rfl
            | cons a t3 => simp at hlen
          · rw [h1] at h2
            have hc := List.append_cancel_left h2
            have hlen := congrArg List.length hc
            cases t1 with
            | nil => exact ht1 rfl
            | cons a t3 => simp at hlen
          · rw [h1] at h2
            have hc := List.append_cancel_left h2
            simp only [List.cons.injEq, Prod.mk.injEq, true_and] at hc
            exact hne (Prod.ext hc.1.1 (add_left_cancel hc.1.2))
    exact key _ (hED u hu) (fun _ h => h)

/-- **C1**: `_all_reach_edge_paths(G, ℓ, d₁, d₂, attr)` emits exactly the
simple paths starting at `ℓ` (chains of graph edges with pairwise-distinct
vertices, `ℓ` included — `contFrom g attr ℓ [ℓ] raw`) whose cumulative edge
weight lies in `[d₁, d₂]`; each is emitted once, in the annotated form
`emittedForm 0 raw`; no path is emitted twice; and the empty path is emitted
iff `d₁ = 0`.  The hypotheses are the graph contract of the spec: no parallel
edges, edge targets are vertices, distances are non-negative, and
`0 ≤ d₁ ≤ d₂`. -/
theorem all_reach_edge_paths_characterization
    (g : Alph) (dist_attr : String) (loc : Location) (d1 : ℚ) (d2 : WithTop ℚ)
    (hED : ∀ x ∈ loc :: g.nodes, (getEdges g dist_attr x).Nodup)
    (hwf : ∀ x ∈ loc :: g.nodes, ∀ e ∈ getEdges g dist_attr x, e.1 ∈ g.nodes ∧ 0 ≤ e.2)
    (hd1 : 0 ≤ d1) (hd12 : ((d1 : ℚ) : WithTop ℚ) ≤ d2) :
    (∀ p, p ∈ allReachEdgePaths g loc d1 d2 dist_attr ↔
      ∃ raw, contFrom g dist_attr loc [loc] raw = true ∧
        d1 ≤ rawWeight raw ∧ ((rawWeight raw : ℚ) : WithTop ℚ) ≤ d2 ∧
        p = emittedForm 0 raw) ∧
    (allReachEdgePaths g loc d1 d2 dist_attr).Nodup ∧
    ([] ∈ allReachEdgePaths g loc d1 d2 dist_attr ↔ d1 = 0) := by
  have hsub : ∀ x ∈ g.nodes, x ∈ loc :: g.nodes := fun x hx => List.mem_cons_of_mem _ hx
  have hd2nonneg : ((0 : ℚ) : WithTop ℚ) ≤ d2 := le_trans (by exact_mod_cast hd1) hd12
  refine ⟨?_, ?_, ?_⟩
  · intro p
    constructor
    · intro hp
      rw [allReachEdgePaths, List.mem_append] at hp
      rcases hp with hp | hp
      · split at hp
        · rename_i hcond
          simp only [List.mem_singleton] at hp
          exact ⟨[], rfl, by simpa [rawWeight] using hcond.1,
            by simpa [rawWeight] using hcond.2, by simp [emittedForm, hp]⟩
        · simp at hp
      · split at hp
        · obtain ⟨raw, _, hcont, hw1, hw2, hform⟩ :=
            reachExtend_sound g dist_attr d1 d2 _ _ _ _ _ _ hp
          exact ⟨raw, hcont, by simpa using hw1, by simpa using hw2, by simpa using hform⟩
        · simp at hp
    · rintro ⟨raw, hcont, hw1, hw2, rfl⟩
      rw [allReachEdgePaths, List.mem_append]
      cases raw with
      | nil =>
        left
        rw [if_pos ⟨by simpa [rawWeight] using hw1, hd2nonneg⟩]
        simp [emittedForm]
      | cons e rest =>
        right
        obtain ⟨x, v, w⟩ := e
        have hcont0 := hcont
        simp only [contFrom, Bool.and_eq_true, beq_iff_eq, decide_eq_true_eq,
          Bool.not_eq_true', decide_eq_false_iff_not] at hcont0
        obtain ⟨⟨⟨hx, hmem⟩, hnv⟩, _⟩ := hcont0
        rw [hx] at hmem
        have hvnodes : v ∈ g.nodes :=
          (hwf loc (List.mem_cons_self _ _) (v, w) hmem).1
        have hvloc : v ≠ loc := by simpa using hnv
        rw [if_pos ⟨hd2nonneg, by
          rw [List.any_eq_true]; exact ⟨v, hvnodes, by simpa using hvloc⟩⟩]
        have := reachExtend_complete g dist_attr d1 d2 (loc :: g.nodes) hwf hsub
          ((x, v, w) :: rest) g.nodes.length [loc] [] 0 loc (by simp) hcont
          (by simpa using hw1) (by simpa using hw2) (List.mem_cons_self _ _)
          (List.length_filter_le _ _)
        simpa using this
  · rw [allReachEdgePaths, List.nodup_append]
    refine ⟨by split <;> simp, ?_, ?_⟩
    · split
      · exact reachExtend_nodup g dist_attr d1 d2 (loc :: g.nodes) hED hwf hsub
          _ _ _ _ _ (List.mem_cons_self _ _)
      · simp
    · intro p hp1 hp2
      split at hp1
      · simp only [List.mem_singleton] at hp1
        split at hp2
        · obtain ⟨s, hs, hps⟩ := reachExtend_extends g dist_attr d1 d2 _ _ _ _ _ _ hp2
          rw [hp1] at hps
          simp only [List.nil_append] at hps
          exact hs hps.symm
        · simp at hp2
      · simp at hp1
  · constructor
    · intro hp
      rw [allReachEdgePaths, List.mem_append] at hp
      rcases hp with hp | hp
      · split at hp
        · rename_i hcond
          exact le_antisymm hcond.1 hd1
        · simp at hp
      · split at hp
        · obtain ⟨s, hs, hps⟩ := reachExtend_extends g dist_attr d1 d2 _ _ _ _ _ _ hp
          simp only [List.nil_append] at hps
          exact absurd hps.symm hs
        · simp at hp
    · intro h
      subst h
      rw [allReachEdgePaths, List.mem_append]
      left
      rw [if_pos ⟨le_refl _, hd2nonneg⟩]
      simp

/-! ## Claim theorems -/

/-- Helper: the visit guard `str(phi) in self.expr_var_map.keys()` never
fires, because a Python `str` is never equal to an `(Expr, Location)` tuple. -/
theorem visitGuard_false (φ : Expr) (keys : List Q) : visitGuard φ keys = false := by
  unfold visitGuard
  induction keys with
  | nil => rfl
  | cons k ks ih => rw [List.any_cons, ih]; rfl

/-- **C7**: compiling a `NextOp` whose `steps` is `≤ 0` fails with
`CompileError(InvalidParameter)` and never reaches the automaton
constructor.  The validation is modelled from the spec (see `mkNextOp`): the
AST constructors live outside `src/`. -/
theorem next_nonpositive_steps_rejected (steps : ℤ) (arg : Expr) (N : ℕ)
    (dist_attr : Option String) (h : steps ≤ 0) :
    compileNextFormula steps arg N dist_attr = .error .invalidParameter := by
  unfold compileNextFormula mkNextOp
  rw [if_pos h]
  rfl

theorem next_nonpositive_steps_rejected_witness :
    (0 : ℤ) ≤ 0 ∧
      compileNextFormula 0 (.Identifier "p") 1 none = .error .invalidParameter :=
  ⟨by decide, next_nonpositive_steps_rejected 0 (.Identifier "p") 1 none (by decide)⟩

/-- **C8 (counterexample)**: `make_bool_automaton` called without an explicit
`dist_attr` compiles an automaton whose distance attribute is `"hop"`, not
`"weight"` — its parameter default is `dist_attr: str = "hop"`. -/
theorem make_bool_automaton_defaults_hop :
    (makeBoolAutomaton (.Identifier "p") 1 none).map StrelAutomaton.dist_attr
      = .ok "hop" ∧ "hop" ≠ "weight" := by
  constructor
  · decide
  · decide

/-- **C8 (amended)**: `from_strel_expr` (through `_ExprMapper.__init__`)
defaults the edge-distance attribute to `"weight"` when none is supplied,
but `make_bool_automaton` called without an explicit `dist_attr` defaults it
to `"hop"`. -/
theorem dist_attr_defaults :
    (fromStrelExpr (.Identifier "p") 1 none).map StrelAutomaton.dist_attr = .ok "weight" ∧
    (makeBoolAutomaton (.Identifier "p") 1 none).map StrelAutomaton.dist_attr = .ok "hop" ∧
    mapperDistAttr none = "weight" := by
  refine ⟨by decide, by decide, rfl⟩

/-- **C3**: compiling `EverywhereOp(I, α)` does not succeed: after installing
the rewrite `¬somewhere[I]¬α` and the alias, `visit` raises a bare
`NotImplementedError()` (strel.py line 410), which propagates out of
`from_strel_expr`.  This contradicts the spec, which says the rewrite is
compiled and only `Escape` is unimplemented. -/
theorem everywhere_compilation_raises :
    fromStrelExpr (.EverywhereOp ⟨some 0, some 1⟩ (.Identifier "p")) 1 none
      = .error .everywhereNotImpl := by decide

/-- **C9**: no node is ever skipped by the visit guard: the membership test
compares the string `str(phi)` against `(Expr, Location)` tuple keys, so it
is false even when the node's key is already in the declared-variable map —
witnessed concretely: compiling `Identifier "p"` puts `(p, 0)` into
`const_mapping`, yet the guard still evaluates to false on that table. -/
theorem visit_guard_never_skips :
    (∀ (φ : Expr) (keys : List Q), visitGuard φ keys = false) ∧
    visitF 1 (muExpr (.Identifier "p") + 1)
        { constMapping := [], transitions := [] } (.Identifier "p") =
      .ok { constMapping := [(.Identifier "p", 0)], transitions := [(.Identifier "p", 0)] } ∧
    visitGuard (.Identifier "p") [(.Identifier "p", 0)] = false ∧
    ((Expr.Identifier "p", (0 : Location)) ∈ [((Expr.Identifier "p" : Expr), (0 : Location))]) := by
  exact ⟨visitGuard_false, by decide, visitGuard_false _ _, by decide⟩

/-- **C10**: a `ReachOp` whose interval end is `0` is compiled with an upper
distance bound of `+∞`, not `0`: `phi.interval.end or math.inf` replaces the
falsy end `0` (and an absent end) by `math.inf`.  Concretely, on the graph
`0 —(2)— 1` the enumeration performed by the compiled reach transition for
interval `[0, 0]` — `allReachEdgePaths` at bounds
`(resolveD1 (some 0), resolveD2 (some 0))` — contains the weight-2 path
`[(0, 1, 2)]`, which an upper bound of `0` would exclude. -/
theorem reach_zero_end_is_infinity :
    resolveD2 (some 0) = ⊤ ∧ resolveD2 none = ⊤ ∧ resolveD1 (some 0) = 0 ∧
    [((0 : Location), (1 : Location), (2 : ℚ))] ∈
      allReachEdgePaths twoNodeGraph 0 (resolveD1 (some 0)) (resolveD2 (some 0)) "weight" ∧
    [((0 : Location), (1 : Location), (2 : ℚ))] ∉
      allReachEdgePaths twoNodeGraph 0 0 ((0 : ℚ) : WithTop ℚ) "weight" := by
  refine ⟨rfl, rfl, rfl, ?_, ?_⟩
  · -- the weight-2 path is enumerated under the resolved bounds (0, ⊤)
    show _ ∈ allReachEdgePaths twoNodeGraph 0 0 ⊤ "weight"
    rw [allReachEdgePaths, List.mem_append]
    right
    rw [if_pos ⟨le_top, by decide⟩]
    have h := reachExtend_complete twoNodeGraph "weight" 0 ⊤ ((0 : Location) :: twoNodeGraph.nodes)
      (by decide) (fun x hx => List.mem_cons_of_mem _ hx)
      [(0, 1, 2)] twoNodeGraph.nodes.length [0] [] 0 0 (by simp)
      (by decide) (by norm_num [rawWeight]) le_top (by decide)
      (List.length_filter_le _ _)
    simpa [emittedForm] using h
  · -- it is not enumerated when the upper bound really is 0
    intro hmem
    rw [allReachEdgePaths, List.mem_append] at hmem
    rcases hmem with hmem | hmem
    · split at hmem <;> simp at hmem
    · split at hmem
      · obtain ⟨raw, hne, hcont, _, hw2, hform⟩ :=
          reachExtend_sound twoNodeGraph "weight" 0 _ _ _ _ _ _ _ hmem
        -- the emitted form determines the raw path: it has one edge of weight 2
        rw [List.nil_append] at hform
        match raw, hne, hcont, hw2, hform with
        | [(x, v, w)], _, hcont, hw2, hform =>
          simp only [emittedForm, List.cons.injEq, Prod.mk.injEq, and_true] at hform
          obtain ⟨hx, hv, hw⟩ := hform
          -- total weight 2 cannot satisfy the upper bound 0
          rw [WithTop.coe_le_coe] at hw2
          rw [← hw] at hw2
          norm_num [rawWeight] at hw2
        | (x, v, w) :: e2 :: raw2, _, hcont, hw2, hform =>
          have := congrArg List.length hform
          simp [emittedForm_length] at this
      · simp at hmem

/-- Helper for C4: `visit` raises on every formula containing an `EscapeOp`
subformula — either the `EscapeOp` case's `NotImplementedError("We currently
don't support escape")`, an `EverywhereOp` encountered first (which raises
unconditionally), or an earlier error in a sibling subtree; in every case the
post-order visit ends in an exception. -/
theorem visitF_escape_error (φ : Expr) (h : containsEscape φ = true) :
    ∀ (N fuel : ℕ) (st : CState), ∃ e, visitF N fuel st φ = .error e := by
  induction φ with
  | Constant b => simp [containsEscape] at h
  | Identifier n => simp [containsEscape] at h
  | EscapeOp i a _ =>
    intro N fuel st
    match fuel with
    | 0 => exact ⟨.outOfFuel, rfl⟩
    | fuel + 1 =>
      rw [visitF, visitGuard_false]
      cases h1 : visitF N fuel st a with
      | error e => exact ⟨e, by simp [h1, Bind.bind, Except.bind]⟩
      | ok st1 => exact ⟨.escapeNotImpl, by simp [h1, Bind.bind, Except.bind]⟩
  | EverywhereOp i a iha =>
    intro N fuel st
    match fuel with
    | 0 => exact ⟨.outOfFuel, rfl⟩
    | fuel + 1 =>
      rw [visitF, visitGuard_false]
      cases h1 : visitF N fuel st a with
      | error e => exact ⟨e, by simp [h1, Bind.bind, Except.bind]⟩
      | ok st1 =>
        cases h2 : visitF N fuel st1 (.NotOp (.SomewhereOp i (.NotOp a))) with
        | error e => exact ⟨e, by simp [h1, h2, Bind.bind, Except.bind]⟩
        | ok st2 => exact ⟨.everywhereNotImpl, by simp [h1, h2, Bind.bind, Except.bind]⟩
  | NotOp a iha =>
    intro N fuel st
    match fuel with
    | 0 => exact ⟨.outOfFuel, rfl⟩
    | fuel + 1 =>
      rw [visitF, visitGuard_false]
      obtain ⟨e, he⟩ := iha (by simpa [containsEscape] using h) N fuel st
      exact ⟨e, by simp [he, Bind.bind, Except.bind]⟩
  | NextOp s a iha =>
    intro N fuel st
    match fuel with
    | 0 => exact ⟨.outOfFuel, rfl⟩
    | fuel + 1 =>
      rw [visitF, visitGuard_false]
      obtain ⟨e, he⟩ := iha (by simpa [containsEscape] using h) N fuel st
      exact ⟨e, by simp [he, Bind.bind, Except.bind]⟩
  | GloballyOp i a iha =>
    intro N fuel st
    match fuel with
    | 0 => exact ⟨.outOfFuel, rfl⟩
    | fuel + 1 =>
      rw [visitF, visitGuard_false]
      obtain ⟨e, he⟩ := iha (by simpa [containsEscape] using h) N fuel st
      exact ⟨e, by simp [he, Bind.bind, Except.bind]⟩
  | SomewhereOp i a iha =>
    intro N fuel st
    match fuel with
    | 0 => exact ⟨.outOfFuel, rfl⟩
    | fuel + 1 =>
      rw [visitF, visitGuard_false]
      obtain ⟨e, he⟩ := iha (by simpa [containsEscape] using h) N fuel st
      exact ⟨e, by simp [he, Bind.bind, Except.bind]⟩
  | EventuallyOp i a iha =>
    intro N fuel st
    match fuel with
    | 0 => exact ⟨.outOfFuel, rfl⟩
    | fuel + 1 =>
      rw [visitF, visitGuard_false]
      obtain ⟨e, he⟩ := iha (by simpa [containsEscape] using h) N fuel st
      exact ⟨e, by simp [he, Bind.bind, Except.bind]⟩
  | AndOp l r ihl ihr =>
    intro N fuel st
    match fuel with
    | 0 => exact ⟨.outOfFuel, rfl⟩
    | fuel + 1 =>
      rw [visitF, visitGuard_false]
      simp only [containsEscape, Bool.or_eq_true] at h
      rcases h with h | h
      · obtain ⟨e, he⟩ := ihl h N fuel st
        exact ⟨e, by simp [he, Bind.bind, Except.bind]⟩
      · cases h1 : visitF N fuel st l with
        | error e => exact ⟨e, by simp [h1, Bind.bind, Except.bind]⟩
        | ok st1 =>
          obtain ⟨e, he⟩ := ihr h N fuel st1
          exact ⟨e, by simp [h1, he, Bind.bind, Except.bind]⟩
  | OrOp l r ihl ihr =>
    intro N fuel st
    match fuel with
    | 0 => exact ⟨.outOfFuel, rfl⟩
    | fuel + 1 =>
      rw [visitF, visitGuard_false]
      simp only [containsEscape, Bool.or_eq_true] at h
      rcases h with h | h
      · obtain ⟨e, he⟩ := ihl h N fuel st
        exact ⟨e, by simp [he, Bind.bind, Except.bind]⟩
      · cases h1 : visitF N fuel st l with
        | error e => exact ⟨e, by simp [h1, Bind.bind, Except.bind]⟩
        | ok st1 =>
          obtain ⟨e, he⟩ := ihr h N fuel st1
          exact ⟨e, by simp [h1, he, Bind.bind, Except.bind]⟩
  | ReachOp l i r ihl ihr =>
    intro N fuel st
    match fuel with
    | 0 => exact ⟨.outOfFuel, rfl⟩
    | fuel + 1 =>
      rw [visitF, visitGuard_false]
      simp only [containsEscape, Bool.or_eq_true] at h
      rcases h with h | h
      · obtain ⟨e, he⟩ := ihl h N fuel st
        exact ⟨e, by simp [he, Bind.bind, Except.bind]⟩
      · cases h1 : visitF N fuel st l with
        | error e => exact ⟨e, by simp [h1, Bind.bind, Except.bind]⟩
        | ok st1 =>
          obtain ⟨e, he⟩ := ihr h N fuel st1
          exact ⟨e, by simp [h1, he, Bind.bind, Except.bind]⟩
  | UntilOp l i r ihl ihr =>
    intro N fuel st
    match fuel with
    | 0 => exact ⟨.outOfFuel, rfl⟩
    | fuel + 1 =>
      rw [visitF, visitGuard_false]
      simp only [containsEscape, Bool.or_eq_true] at h
      rcases h with h | h
      · obtain ⟨e, he⟩ := ihl h N fuel st
        exact ⟨e, by simp [he, Bind.bind, Except.bind]⟩
      · cases h1 : visitF N fuel st l with
        | error e => exact ⟨e, by simp [h1, Bind.bind, Except.bind]⟩
        | ok st1 =>
          obtain ⟨e, he⟩ := ihr h N fuel st1
          exact ⟨e, by simp [h1, he, Bind.bind, Except.bind]⟩

/-- Helper: `unCoeff` is positive, so an `UntilOp`'s measure dominates both
children. -/
theorem unCoeff_pos (i : Option TimeInterval) : 0 < unCoeff i := by
  rcases i with _ | ⟨(_ | t1), (_ | t2)⟩ <;> exact Nat.succ_pos _

/-- Helper for C4: with adequate fuel (`muExpr φ < fuel`, as supplied by the
compile wrapper), a failing compile pass fails with one of the two
`NotImplementedError`s — the `EscapeOp` case's or the `EverywhereOp` case's
bare one; `visit` raises nothing else. -/
theorem visitF_error_kind :
    ∀ (fuel : ℕ) (φ : Expr) (N : ℕ) (st : CState) (e : Err),
      muExpr φ < fuel → visitF N fuel st φ = .error e →
      e = .escapeNotImpl ∨ e = .everywhereNotImpl := by
  intro fuel
  induction fuel with
  | zero => intro φ N st e hμ _; exact absurd hμ (Nat.not_lt_zero _)
  | succ fuel ih =>
    intro φ N st e hμ h
    cases φ with
    | Constant b =>
      simp only [visitF, visitGuard_false, Bool.false_eq_true, if_false] at h
      exact absurd h (by simp)
    | Identifier n =>
      simp only [visitF, visitGuard_false, Bool.false_eq_true, if_false] at h
      exact absurd h (by simp)
    | NotOp a =>
      simp only [visitF, visitGuard_false, Bool.false_eq_true, if_false] at h
      cases h1 : visitF N fuel st a with
      | error e1 =>
        rw [h1] at h
        simp only [Bind.bind, Except.bind, Except.error.injEq] at h
        subst h
        exact ih a N st e1 (by simp only [muExpr] at hμ; omega) h1
      | ok st1 =>
        rw [h1] at h
        exact absurd h (by simp [Bind.bind, Except.bind])
    | NextOp s a =>
      simp only [visitF, visitGuard_false, Bool.false_eq_true, if_false] at h
      cases h1 : visitF N fuel st a with
      | error e1 =>
        rw [h1] at h
        simp only [Bind.bind, Except.bind, Except.error.injEq] at h
        subst h
        exact ih a N st e1 (by simp only [muExpr] at hμ; omega) h1
      | ok st1 =>
        rw [h1] at h
        exact absurd h (by simp [Bind.bind, Except.bind])
    | AndOp l r =>
      simp only [visitF, visitGuard_false, Bool.false_eq_true, if_false] at h
      cases h1 : visitF N fuel st l with
      | error e1 =>
        rw [h1] at h
        simp only [Bind.bind, Except.bind, Except.error.injEq] at h
        subst h
        exact ih l N st e1 (by simp only [muExpr] at hμ; omega) h1
      | ok st1 =>
        rw [h1] at h
        simp only [Bind.bind, Except.bind] at h
        cases h2 : visitF N fuel st1 r with
        | error e2 =>
          rw [h2] at h
          simp only [Except.bind, Except.error.injEq] at h
          subst h
          exact ih r N st1 e2 (by simp only [muExpr] at hμ; omega) h2
        | ok st2 =>
          rw [h2] at h
          exact absurd h (by simp [Except.bind])
    | OrOp l r =>
      simp only [visitF, visitGuard_false, Bool.false_eq_true, if_false] at h
      cases h1 : visitF N fuel st l with
      | error e1 =>
        rw [h1] at h
        simp only [Bind.bind, Except.bind, Except.error.injEq] at h
        subst h
        exact ih l N st e1 (by simp only [muExpr] at hμ; omega) h1
      | ok st1 =>
        rw [h1] at h
        simp only [Bind.bind, Except.bind] at h
        cases h2 : visitF N fuel st1 r with
        | error e2 =>
          rw [h2] at h
          simp only [Except.bind, Except.error.injEq] at h
          subst h
          exact ih r N st1 e2 (by simp only [muExpr] at hμ; omega) h2
        | ok st2 =>
          rw [h2] at h
          exact absurd h (by simp [Except.bind])
    | ReachOp l i r =>
      simp only [visitF, visitGuard_false, Bool.false_eq_true, if_false] at h
      cases h1 : visitF N fuel st l with
      | error e1 =>
        rw [h1] at h
        simp only [Bind.bind, Except.bind, Except.error.injEq] at h
        subst h
        exact ih l N st e1 (by simp only [muExpr] at hμ; omega) h1
      | ok st1 =>
        rw [h1] at h
        simp only [Bind.bind, Except.bind] at h
        cases h2 : visitF N fuel st1 r with
        | error e2 =>
          rw [h2] at h
          simp only [Except.bind, Except.error.injEq] at h
          subst h
          exact ih r N st1 e2 (by simp only [muExpr] at hμ; omega) h2
        | ok st2 =>
          rw [h2] at h
          exact absurd h (by simp [Except.bind])
    | EscapeOp i a =>
      simp only [visitF, visitGuard_false, Bool.false_eq_true, if_false] at h
      cases h1 : visitF N fuel st a with
      | error e1 =>
        rw [h1] at h
        simp only [Bind.bind, Except.bind, Except.error.injEq] at h
        subst h
        exact ih a N st e1 (by simp only [muExpr] at hμ; omega) h1
      | ok st1 =>
        rw [h1] at h
        simp only [Bind.bind, Except.bind, Except.error.injEq] at h
        exact Or.inl h.symm
    | EverywhereOp i a =>
      simp only [visitF, visitGuard_false, Bool.false_eq_true, if_false] at h
      cases h1 : visitF N fuel st a with
      | error e1 =>
        rw [h1] at h
        simp only [Bind.bind, Except.bind, Except.error.injEq] at h
        subst h
        exact ih a N st e1 (by simp only [muExpr] at hμ; omega) h1
      | ok st1 =>
        rw [h1] at h
        simp only [Bind.bind, Except.bind] at h
        cases h2 : visitF N fuel st1 (.NotOp (.SomewhereOp i (.NotOp a))) with
        | error e2 =>
          rw [h2] at h
          simp only [Except.bind, Except.error.injEq] at h
          subst h
          exact ih _ N st1 e2 (by simp only [muExpr] at hμ ⊢; omega) h2
        | ok st2 =>
          rw [h2] at h
          simp only [Except.bind, Except.error.injEq] at h
          exact Or.inr h.symm
    | SomewhereOp i a =>
      simp only [visitF, visitGuard_false, Bool.false_eq_true, if_false] at h
      cases h1 : visitF N fuel st a with
      | error e1 =>
        rw [h1] at h
        simp only [Bind.bind, Except.bind, Except.error.injEq] at h
        subst h
        exact ih a N st e1 (by simp only [muExpr] at hμ; omega) h1
      | ok st1 =>
        rw [h1] at h
        simp only [Bind.bind, Except.bind] at h
        exact ih _ N st1 e (by simp only [muExpr] at hμ ⊢; omega) h
    | GloballyOp i a =>
      simp only [visitF, visitGuard_false, Bool.false_eq_true, if_false] at h
      cases h1 : visitF N fuel st a with
      | error e1 =>
        rw [h1] at h
        simp only [Bind.bind, Except.bind, Except.error.injEq] at h
        subst h
        exact ih a N st e1 (by simp only [muExpr] at hμ; omega) h1
      | ok st1 =>
        rw [h1] at h
        simp only [Bind.bind, Except.bind] at h
        exact ih _ N st1 e (by simp only [muExpr] at hμ ⊢; omega) h
    | EventuallyOp i a =>
      simp only [visitF, visitGuard_false, Bool.false_eq_true, if_false] at h
      cases h1 : visitF N fuel st a with
      | error e1 =>
        rw [h1] at h
        simp only [Bind.bind, Except.bind, Except.error.injEq] at h
        subst h
        exact ih a N st e1 (by simp only [muExpr] at hμ; omega) h1
      | ok st1 =>
        rw [h1] at h
        simp only [Bind.bind, Except.bind] at h
        match i, hμ, h with
        | none, hμ, h => exact absurd h (by simp)
        | some ⟨none, none⟩, hμ, h => exact absurd h (by simp)
        | some ⟨some 0, none⟩, hμ, h => exact absurd h (by simp)
        | some ⟨none, some t2⟩, hμ, h => exact absurd h (by simp)
        | some ⟨some 0, some t2⟩, hμ, h => exact absurd h (by simp)
        | some ⟨some (t1 + 1), none⟩, hμ, h =>
          exact ih _ N st1 e (by simp only [muExpr, evWeight] at hμ ⊢; omega) h
        | some ⟨some (t1 + 1), some t2⟩, hμ, h =>
          exact ih _ N st1 e (by simp only [muExpr, evWeight] at hμ ⊢; omega) h
    | UntilOp l i r =>
      simp only [visitF, visitGuard_false, Bool.false_eq_true, if_false] at h
      have hrc : muExpr r ≤ unCoeff i * muExpr r :=
        Nat.le_mul_of_pos_left _ (unCoeff_pos i)
      cases h1 : visitF N fuel st l with
      | error e1 =>
        rw [h1] at h
        simp only [Bind.bind, Except.bind, Except.error.injEq] at h
        subst h
        exact ih l N st e1 (by simp only [muExpr] at hμ; omega) h1
      | ok st1 =>
        rw [h1] at h
        simp only [Bind.bind, Except.bind] at h
        cases h2 : visitF N fuel st1 r with
        | error e2 =>
          rw [h2] at h
          simp only [Except.bind, Except.error.injEq] at h
          subst h
          exact ih r N st1 e2 (by simp only [muExpr] at hμ; omega) h2
        | ok st2 =>
          rw [h2] at h
          simp only [Except.bind] at h
          match i, hμ, h with
          | none, hμ, h => exact absurd h (by simp)
          | some ⟨some 0, none⟩, hμ, h => exact absurd h (by simp)
          | some ⟨none, none⟩, hμ, h => exact absurd h (by simp)
          | some ⟨none, some t2⟩, hμ, h => exact absurd h (by simp)
          | some ⟨some (t1 + 1), none⟩, hμ, h =>
            exact ih _ N st2 e
              (by simp only [muExpr, evWeight, unWeight, unCoeff] at hμ ⊢; omega) h
          | some ⟨some 0, some t2⟩, hμ, h =>
            exact ih _ N st2 e
              (by simp only [muExpr, evWeight, unWeight, unCoeff] at hμ ⊢; omega) h
          | some ⟨some (t1 + 1), some t2⟩, hμ, h =>
            exact ih _ N st2 e
              (by simp only [muExpr, evWeight, unWeight, unCoeff] at hμ ⊢; omega) h

/-- Helper for C4: on an `EverywhereOp`-free formula, a failing compile pass
never fails with the `EverywhereOp` case's bare `NotImplementedError()`: the
rewrites installed by `visit` never introduce an `EverywhereOp`. -/
theorem visitF_no_everywhere_error :
    ∀ (fuel : ℕ) (φ : Expr) (N : ℕ) (st : CState) (e : Err),
      containsEverywhere φ = false → visitF N fuel st φ = .error e →
      e ≠ .everywhereNotImpl := by
  intro fuel
  induction fuel with
  | zero =>
    intro φ N st e _ h
    simp only [visitF, Except.error.injEq] at h
    subst h
    decide
  | succ fuel ih =>
    intro φ N st e hev h
    cases φ with
    | Constant b =>
      simp only [visitF, visitGuard_false, Bool.false_eq_true, if_false] at h
      exact absurd h (by simp)
    | Identifier n =>
      simp only [visitF, visitGuard_false, Bool.false_eq_true, if_false] at h
      exact absurd h (by simp)
    | NotOp a =>
      simp only [visitF, visitGuard_false, Bool.false_eq_true, if_false] at h
      cases h1 : visitF N fuel st a with
      | error e1 =>
        rw [h1] at h
        simp only [Bind.bind, Except.bind, Except.error.injEq] at h
        subst h
        exact ih a N st e1 (by simpa [containsEverywhere] using hev) h1
      | ok st1 =>
        rw [h1] at h
        exact absurd h (by simp [Bind.bind, Except.bind])
    | NextOp s a =>
      simp only [visitF, visitGuard_false, Bool.false_eq_true, if_false] at h
      cases h1 : visitF N fuel st a with
      | error e1 =>
        rw [h1] at h
        simp only [Bind.bind, Except.bind, Except.error.injEq] at h
        subst h
        exact ih a N st e1 (by simpa [containsEverywhere] using hev) h1
      | ok st1 =>
        rw [h1] at h
        exact absurd h (by simp [Bind.bind, Except.bind])
    | AndOp l r =>
      simp only [visitF, visitGuard_false, Bool.false_eq_true, if_false] at h
      simp only [containsEverywhere, Bool.or_eq_false_iff] at hev
      cases h1 : visitF N fuel st l with
      | error e1 =>
        rw [h1] at h
        simp only [Bind.bind, Except.bind, Except.error.injEq] at h
        subst h
        exact ih l N st e1 hev.1 h1
      | ok st1 =>
        rw [h1] at h
        simp only [Bind.bind, Except.bind] at h
        cases h2 : visitF N fuel st1 r with
        | error e2 =>
          rw [h2] at h
          simp only [Except.bind, Except.error.injEq] at h
          subst h
          exact ih r N st1 e2 hev.2 h2
        | ok st2 =>
          rw [h2] at h
          exact absurd h (by simp [Except.bind])
    | OrOp l r =>
      simp only [visitF, visitGuard_false, Bool.false_eq_true, if_false] at h
      simp only [containsEverywhere, Bool.or_eq_false_iff] at hev
      cases h1 : visitF N fuel st l with
      | error e1 =>
        rw [h1] at h
        simp only [Bind.bind, Except.bind, Except.error.injEq] at h
        subst h
        exact ih l N st e1 hev.1 h1
      | ok st1 =>
        rw [h1] at h
        simp only [Bind.bind, Except.bind] at h
        cases h2 : visitF N fuel st1 r with
        | error e2 =>
          rw [h2] at h
          simp only [Except.bind, Except.error.injEq] at h
          subst h
          exact ih r N st1 e2 hev.2 h2
        | ok st2 =>
          rw [h2] at h
          exact absurd h (by simp [Except.bind])
    | ReachOp l i r =>
      simp only [visitF, visitGuard_false, Bool.false_eq_true, if_false] at h
      simp only [containsEverywhere, Bool.or_eq_false_iff] at hev
      cases h1 : visitF N fuel st l with
      | error e1 =>
        rw [h1] at h
        simp only [Bind.bind, Except.bind, Except.error.injEq] at h
        subst h
        exact ih l N st e1 hev.1 h1
      | ok st1 =>
        rw [h1] at h
        simp only [Bind.bind, Except.bind] at h
        cases h2 : visitF N fuel st1 r with
        | error e2 =>
          rw [h2] at h
          simp only [Except.bind, Except.error.injEq] at h
          subst h
          exact ih r N st1 e2 hev.2 h2
        | ok st2 =>
          rw [h2] at h
          exact absurd h (by simp [Except.bind])
    | EscapeOp i a =>
      simp only [visitF, visitGuard_false, Bool.false_eq_true, if_false] at h
      cases h1 : visitF N fuel st a with
      | error e1 =>
        rw [h1] at h
        simp only [Bind.bind, Except.bind, Except.error.injEq] at h
        subst h
        exact ih a N st e1 (by simpa [containsEverywhere] using hev) h1
      | ok st1 =>
        rw [h1] at h
        simp only [Bind.bind, Except.bind, Except.error.injEq] at h
        rw [← h]
        decide
    | EverywhereOp i a =>
      simp [containsEverywhere] at hev
    | SomewhereOp i a =>
      simp only [visitF, visitGuard_false, Bool.false_eq_true, if_false] at h
      simp only [containsEverywhere] at hev
      cases h1 : visitF N fuel st a with
      | error e1 =>
        rw [h1] at h
        simp only [Bind.bind, Except.bind, Except.error.injEq] at h
        subst h
        exact ih a N st e1 hev h1
      | ok st1 =>
        rw [h1] at h
        simp only [Bind.bind, Except.bind] at h
        exact ih _ N st1 e (by simp [containsEverywhere, hev]) h
    | GloballyOp i a =>
      simp only [visitF, visitGuard_false, Bool.false_eq_true, if_false] at h
      simp only [containsEverywhere] at hev
      cases h1 : visitF N fuel st a with
      | error e1 =>
        rw [h1] at h
        simp only [Bind.bind, Except.bind, Except.error.injEq] at h
        subst h
        exact ih a N st e1 hev h1
      | ok st1 =>
        rw [h1] at h
        simp only [Bind.bind, Except.bind] at h
        exact ih _ N st1 e (by simp [containsEverywhere, hev]) h
    | EventuallyOp i a =>
      simp only [visitF, visitGuard_false, Bool.false_eq_true, if_false] at h
      simp only [containsEverywhere] at hev
      cases h1 : visitF N fuel st a with
      | error e1 =>
        rw [h1] at h
        simp only [Bind.bind, Except.bind, Except.error.injEq] at h
        subst h
        exact ih a N st e1 hev h1
      | ok st1 =>
        rw [h1] at h
        simp only [Bind.bind, Except.bind] at h
        match i, h with
        | none, h => exact absurd h (by simp)
        | some ⟨none, none⟩, h => exact absurd h (by simp)
        | some ⟨some 0, none⟩, h => exact absurd h (by simp)
        | some ⟨none, some t2⟩, h => exact absurd h (by simp)
        | some ⟨some 0, some t2⟩, h => exact absurd h (by simp)
        | some ⟨some (t1 + 1), none⟩, h =>
          exact ih _ N st1 e (by simp [containsEverywhere, hev]) h
        | some ⟨some (t1 + 1), some t2⟩, h =>
          exact ih _ N st1 e (by simp [containsEverywhere, hev]) h
    | UntilOp l i r =>
      simp only [visitF, visitGuard_false, Bool.false_eq_true, if_false] at h
      simp only [containsEverywhere, Bool.or_eq_false_iff] at hev
      cases h1 : visitF N fuel st l with
      | error e1 =>
        rw [h1] at h
        simp only [Bind.bind, Except.bind, Except.error.injEq] at h
        subst h
        exact ih l N st e1 hev.1 h1
      | ok st1 =>
        rw [h1] at h
        simp only [Bind.bind, Except.bind] at h
        cases h2 : visitF N fuel st1 r with
        | error e2 =>
          rw [h2] at h
          simp only [Except.bind, Except.error.injEq] at h
          subst h
          exact ih r N st1 e2 hev.2 h2
        | ok st2 =>
          rw [h2] at h
          simp only [Except.bind] at h
          match i, h with
          | none, h => exact absurd h (by simp)
          | some ⟨some 0, none⟩, h => exact absurd h (by simp)
          | some ⟨none, none⟩, h => exact absurd h (by simp)
          | some ⟨none, some t2⟩, h => exact absurd h (by simp)
          | some ⟨some (t1 + 1), none⟩, h =>
            exact ih _ N st2 e
              (by simp [containsEverywhere, hev.1, hev.2]) h
          | some ⟨some 0, some t2⟩, h =>
            exact ih _ N st2 e
              (by simp [containsEverywhere, hev.1, hev.2]) h
          | some ⟨some (t1 + 1), some t2⟩, h =>
            exact ih _ N st2 e
              (by simp [containsEverywhere, hev.1, hev.2]) h

/-- **C4 (counterexample)**: the raised error does not always identify the
unsupported `EscapeOp`: when an `EverywhereOp` subformula is compiled before
the `EscapeOp` is reached, the `EverywhereOp` case's bare
`NotImplementedError()` (strel.py line 410, carrying no message at all)
propagates instead of the `EscapeOp` case's "We currently don't support
escape". -/
theorem escape_error_not_specific :
    containsEscape (.AndOp (.EverywhereOp ⟨some 0, some 1⟩ (.Identifier "p"))
      (.EscapeOp ⟨some 0, some 1⟩ (.Identifier "q"))) = true ∧
    fromStrelExpr (.AndOp (.EverywhereOp ⟨some 0, some 1⟩ (.Identifier "p"))
      (.EscapeOp ⟨some 0, some 1⟩ (.Identifier "q"))) 1 none
      = .error .everywhereNotImpl ∧
    Err.everywhereNotImpl ≠ Err.escapeNotImpl := by
  refine ⟨by decide, by decide, by decide⟩

/-- **C4 (amended)**: for every formula containing an `EscapeOp` subformula
(and a positive `max_locs`, the compiler's asserted precondition),
`from_strel_expr` raises and returns no automaton; the error is one of the
two `NotImplementedError`s, and it is the `EscapeOp` case's own error — the
one naming the unsupported operator — whenever the formula contains no
`EverywhereOp`.  (Without that proviso the error can be the `EverywhereOp`
case's anonymous one, see the counterexample.) -/
theorem escape_compilation_fails (φ : Expr) (N : ℕ) (dist_attr : Option String)
    (h : containsEscape φ = true) (hN : N ≠ 0) :
    ∃ e, fromStrelExpr φ N dist_attr = .error e ∧
      (e = .escapeNotImpl ∨ e = .everywhereNotImpl) ∧
      (containsEverywhere φ = false → e = .escapeNotImpl) := by
  obtain ⟨e, he⟩ := visitF_escape_error φ h N (muExpr φ + 1)
    { constMapping := [], transitions := [] }
  have hkind := visitF_error_kind (muExpr φ + 1) φ N
    { constMapping := [], transitions := [] } e (Nat.lt_succ_self _) he
  refine ⟨e, ?_, hkind, fun hev => ?_⟩
  · unfold fromStrelExpr
    rw [if_neg hN, he]
  · rcases hkind with h1 | h1
    · exact h1
    · exact absurd h1 (visitF_no_everywhere_error (muExpr φ + 1) φ N
        { constMapping := [], transitions := [] } e hev he)

theorem escape_compilation_fails_witness :
    containsEscape (.EscapeOp ⟨some 0, some 1⟩ (.Identifier "q")) = true ∧
    (1 : ℕ) ≠ 0 ∧
    ∃ e, fromStrelExpr (.EscapeOp ⟨some 0, some 1⟩ (.Identifier "q")) 1 none = .error e ∧
      (e = .escapeNotImpl ∨ e = .everywhereNotImpl) ∧
      (containsEverywhere (.EscapeOp ⟨some 0, some 1⟩ (.Identifier "q")) = false →
        e = .escapeNotImpl) :=
  ⟨by decide, by decide,
    escape_compilation_fails (.EscapeOp ⟨some 0, some 1⟩ (.Identifier "q")) 1 none
      (by decide) (by decide)⟩

/-- Helper: `_add_transition` inserts the same keys into `const_mapping` and
`transitions` (each guarded by the same `setdefault`), so it preserves
equality of the two key lists. -/
theorem addTransitionKeys_pres (N : ℕ) (φ : Expr) (st : CState)
    (h : st.constMapping = st.transitions) :
    (addTransitionKeys N φ st).constMapping = (addTransitionKeys N φ st).transitions := by
  unfold addTransitionKeys
  have key : ∀ (l : List ℕ) (s : CState), s.constMapping = s.transitions →
      ((l.foldl (fun s loc =>
        { constMapping := setdefaultKey (φ, loc) s.constMapping,
          transitions := setdefaultKey (φ, loc) s.transitions }) s).constMapping =
      (l.foldl (fun s loc =>
        { constMapping := setdefaultKey (φ, loc) s.constMapping,
          transitions := setdefaultKey (φ, loc) s.transitions }) s).transitions) := by
    intro l
    induction l with
    | nil => intro s hs; exact hs
    | cons a tl ih =>
      intro s hs
      rw [List.foldl_cons]
      exact ih _ (by simp [hs])
  exact key _ st h

/-- Helper: a fold of `_add_transition` calls preserves equality of the two
key lists. -/
theorem foldl_addTransitionKeys_pres (N : ℕ) {α : Type} (fm : α → Expr)
    (l : List α) (st : CState) (h : st.constMapping = st.transitions) :
    ((l.foldl (fun acc i => addTransitionKeys N (fm i) acc) st).constMapping =
      (l.foldl (fun acc i => addTransitionKeys N (fm i) acc) st).transitions) := by
  induction l generalizing st with
  | nil => exact h
  | cons a tl ih =>
    rw [List.foldl_cons]
    exact ih _ (addTransitionKeys_pres N (fm a) st h)

/-- Helper for C6: every step of `visit` that returns normally keeps
`dom(const_mapping) = dom(transitions)` — the only writer of either table is
`_add_transition`, which inserts into both. -/
theorem visitF_preserves_keysEq :
    ∀ (fuel N : ℕ) (φ : Expr) (st st' : CState),
      visitF N fuel st φ = .ok st' → st.constMapping = st.transitions →
      st'.constMapping = st'.transitions := by
  intro fuel
  induction fuel with
  | zero => intro N φ st st' hok; exact absurd hok (by simp [visitF])
  | succ fuel ih =>
    intro N φ st st' hok hinv
    cases φ with
    | Constant b =>
      simp only [visitF, visitGuard_false, Bool.false_eq_true, if_false,
        Except.ok.injEq] at hok
      rw [← hok]; exact hinv
    | Identifier n =>
      simp only [visitF, visitGuard_false, Bool.false_eq_true, if_false,
        Except.ok.injEq] at hok
      rw [← hok]; exact addTransitionKeys_pres _ _ _ hinv
    | NotOp a =>
      simp only [visitF, visitGuard_false, Bool.false_eq_true, if_false] at hok
      cases h1 : visitF N fuel st a with
      | error e => rw [h1] at hok; exact absurd hok (by simp [Bind.bind, Except.bind])
      | ok st1 =>
        rw [h1] at hok
        simp only [Bind.bind, Except.bind, Except.ok.injEq] at hok
        rw [← hok]; exact addTransitionKeys_pres _ _ _ (ih N a st st1 h1 hinv)
    | AndOp l r =>
      simp only [visitF, visitGuard_false, Bool.false_eq_true, if_false] at hok
      cases h1 : visitF N fuel st l with
      | error e => rw [h1] at hok; exact absurd hok (by simp [Bind.bind, Except.bind])
      | ok st1 =>
        rw [h1] at hok
        simp only [Bind.bind, Except.bind] at hok
        cases h2 : visitF N fuel st1 r with
        | error e => rw [h2] at hok; exact absurd hok (by simp [Except.bind])
        | ok st2 =>
          rw [h2] at hok
          simp only [Except.bind, Except.ok.injEq] at hok
          rw [← hok]
          exact addTransitionKeys_pres _ _ _ (ih N r st1 st2 h2 (ih N l st st1 h1 hinv))
    | OrOp l r =>
      simp only [visitF, visitGuard_false, Bool.false_eq_true, if_false] at hok
      cases h1 : visitF N fuel st l with
      | error e => rw [h1] at hok; exact absurd hok (by simp [Bind.bind, Except.bind])
      | ok st1 =>
        rw [h1] at hok
        simp only [Bind.bind, Except.bind] at hok
        cases h2 : visitF N fuel st1 r with
        | error e => rw [h2] at hok; exact absurd hok (by simp [Except.bind])
        | ok st2 =>
          rw [h2] at hok
          simp only [Except.bind, Except.ok.injEq] at hok
          rw [← hok]
          exact addTransitionKeys_pres _ _ _ (ih N r st1 st2 h2 (ih N l st st1 h1 hinv))
    | ReachOp l i r =>
      simp only [visitF, visitGuard_false, Bool.false_eq_true, if_false] at hok
      cases h1 : visitF N fuel st l with
      | error e => rw [h1] at hok; exact absurd hok (by simp [Bind.bind, Except.bind])
      | ok st1 =>
        rw [h1] at hok
        simp only [Bind.bind, Except.bind] at hok
        cases h2 : visitF N fuel st1 r with
        | error e => rw [h2] at hok; exact absurd hok (by simp [Except.bind])
        | ok st2 =>
          rw [h2] at hok
          simp only [Except.bind, Except.ok.injEq] at hok
          rw [← hok]
          exact addTransitionKeys_pres _ _ _ (ih N r st1 st2 h2 (ih N l st st1 h1 hinv))
    | EverywhereOp i a =>
      simp only [visitF, visitGuard_false, Bool.false_eq_true, if_false] at hok
      cases h1 : visitF N fuel st a with
      | error e => rw [h1] at hok; exact absurd hok (by simp [Bind.bind, Except.bind])
      | ok st1 =>
        rw [h1] at hok
        simp only [Bind.bind, Except.bind] at hok
        cases h2 : visitF N fuel st1 (.NotOp (.SomewhereOp i (.NotOp a))) with
        | error e => rw [h2] at hok; exact absurd hok (by simp [Except.bind])
        | ok st2 => rw [h2] at hok; exact absurd hok (by simp [Except.bind])
    | EscapeOp i a =>
      simp only [visitF, visitGuard_false, Bool.false_eq_true, if_false] at hok
      cases h1 : visitF N fuel st a with
      | error e => rw [h1] at hok; exact absurd hok (by simp [Bind.bind, Except.bind])
      | ok st1 => rw [h1] at hok; exact absurd hok (by simp [Bind.bind, Except.bind])
    | SomewhereOp i a =>
      simp only [visitF, visitGuard_false, Bool.false_eq_true, if_false] at hok
      cases h1 : visitF N fuel st a with
      | error e => rw [h1] at hok; exact absurd hok (by simp [Bind.bind, Except.bind])
      | ok st1 =>
        rw [h1] at hok
        simp only [Bind.bind, Except.bind] at hok
        exact ih N _ st1 st' hok (ih N a st st1 h1 hinv)
    | GloballyOp i a =>
      simp only [visitF, visitGuard_false, Bool.false_eq_true, if_false] at hok
      cases h1 : visitF N fuel st a with
      | error e => rw [h1] at hok; exact absurd hok (by simp [Bind.bind, Except.bind])
      | ok st1 =>
        rw [h1] at hok
        simp only [Bind.bind, Except.bind] at hok
        exact ih N _ st1 st' hok (ih N a st st1 h1 hinv)
    | NextOp s a =>
      simp only [visitF, visitGuard_false, Bool.false_eq_true, if_false] at hok
      cases h1 : visitF N fuel st a with
      | error e => rw [h1] at hok; exact absurd hok (by simp [Bind.bind, Except.bind])
      | ok st1 =>
        rw [h1] at hok
        simp only [Bind.bind, Except.bind, Except.ok.injEq] at hok
        rw [← hok]
        exact addTransitionKeys_pres _ _ _
          (foldl_addTransitionKeys_pres N _ _ _ (ih N a st st1 h1 hinv))
    | EventuallyOp i a =>
      simp only [visitF, visitGuard_false, Bool.false_eq_true, if_false] at hok
      cases h1 : visitF N fuel st a with
      | error e => rw [h1] at hok; exact absurd hok (by simp [Bind.bind, Except.bind])
      | ok st1 =>
        rw [h1] at hok
        simp only [Bind.bind, Except.bind] at hok
        have hinv1 := ih N a st st1 h1 hinv
        match i, hok with
        | none, hok =>
          rw [Except.ok.injEq] at hok
          rw [← hok]; exact addTransitionKeys_pres _ _ _ hinv1
        | some ⟨none, none⟩, hok =>
          rw [Except.ok.injEq] at hok
          rw [← hok]; exact addTransitionKeys_pres _ _ _ hinv1
        | some ⟨some 0, none⟩, hok =>
          rw [Except.ok.injEq] at hok
          rw [← hok]; exact addTransitionKeys_pres _ _ _ hinv1
        | some ⟨none, some t2⟩, hok =>
          rw [Except.ok.injEq] at hok
          rw [← hok]; exact foldl_addTransitionKeys_pres N _ _ _ hinv1
        | some ⟨some 0, some t2⟩, hok =>
          rw [Except.ok.injEq] at hok
          rw [← hok]; exact foldl_addTransitionKeys_pres N _ _ _ hinv1
        | some ⟨some (t1 + 1), none⟩, hok => exact ih N _ st1 st' hok hinv1
        | some ⟨some (t1 + 1), some t2⟩, hok => exact ih N _ st1 st' hok hinv1
    | UntilOp l i r =>
      simp only [visitF, visitGuard_false, Bool.false_eq_true, if_false] at hok
      cases h1 : visitF N fuel st l with
      | error e => rw [h1] at hok; exact absurd hok (by simp [Bind.bind, Except.bind])
      | ok st1 =>
        rw [h1] at hok
        simp only [Bind.bind, Except.bind] at hok
        cases h2 : visitF N fuel st1 r with
        | error e => rw [h2] at hok; exact absurd hok (by simp [Except.bind])
        | ok st2 =>
          rw [h2] at hok
          simp only [Except.bind] at hok
          have hinv2 := ih N r st1 st2 h2 (ih N l st st1 h1 hinv)
          match i, hok with
          | none, hok =>
            rw [Except.ok.injEq] at hok
            rw [← hok]; exact addTransitionKeys_pres _ _ _ hinv2
          | some ⟨some 0, none⟩, hok =>
            rw [Except.ok.injEq] at hok
            rw [← hok]; exact addTransitionKeys_pres _ _ _ hinv2
          | some ⟨none, none⟩, hok =>
            rw [Except.ok.injEq] at hok
            rw [← hok]; exact addTransitionKeys_pres _ _ _ hinv2
          | some ⟨some (t1 + 1), none⟩, hok => exact ih N _ st2 st' hok hinv2
          | some ⟨some 0, some t2⟩, hok => exact ih N _ st2 st' hok hinv2
          | some ⟨some (t1 + 1), some t2⟩, hok => exact ih N _ st2 st' hok hinv2
          | some ⟨none, some t2⟩, hok =>
            rw [Except.ok.injEq] at hok
            rw [← hok]; exact hinv2

/-- **C6**: after a successful compile pass starting from the fresh mapper,
the set of state keys of the `transitions` map equals the set of state keys
of the declared-variable (`const_mapping`) map. -/
theorem compile_table_domains_equal (φ : Expr) (N fuel : ℕ) (st' : CState)
    (hok : visitF N fuel { constMapping := [], transitions := [] } φ = .ok st') :
    ∀ q : Q, q ∈ st'.transitions ↔ q ∈ st'.constMapping := by
  have h := visitF_preserves_keysEq fuel N φ _ st' hok rfl
  intro q
  rw [h]

theorem compile_table_domains_equal_witness :
    visitF 1 (muExpr (.Identifier "q") + 1) { constMapping := [], transitions := [] }
        (.Identifier "q") =
      .ok { constMapping := [(.Identifier "q", 0)], transitions := [(.Identifier "q", 0)] } ∧
    (((Expr.Identifier "q", (0 : Location)) ∈
        ([(Expr.Identifier "q", (0 : Location))] : List Q)) ↔
      ((Expr.Identifier "q", (0 : Location)) ∈
        ([(Expr.Identifier "q", (0 : Location))] : List Q))) :=
  ⟨by decide, compile_table_domains_equal (.Identifier "q") 1 (muExpr (.Identifier "q") + 1)
    { constMapping := [(.Identifier "q", 0)], transitions := [(.Identifier "q", 0)] }
    (by decide) (Expr.Identifier "q", 0)⟩

/-- Helper: the Boolean `_is_accepting` test, as a proposition. -/
theorem isAcceptingExpr_iff (init ψ : Expr) :
    isAcceptingExpr init ψ = true ↔
      (ψ = init ∨
        (∃ i a, ψ = .NotOp (.EventuallyOp i a) ∧
          (i = none ∨ ∃ iv, i = some iv ∧ iv.is_untimed = true)) ∨
        (∃ l i r, ψ = .NotOp (.UntilOp l i r) ∧
          (i = none ∨ ∃ iv, i = some iv ∧ iv.is_untimed = true))) := by
  cases ψ with
  | NotOp arg =>
    cases arg with
    | EventuallyOp i a =>
      cases i with
      | none =>
        simp only [isAcceptingExpr, Bool.or_eq_true, beq_iff_eq]
        constructor
        · rintro (h | h)
          · exact Or.inr (Or.inl ⟨none, a, rfl, Or.inl (by trivial)⟩)
          · exact Or.inl h
        · rintro (h | ⟨i2, a2, heq, hcond⟩ | ⟨l2, i2, r2, heq, hcond⟩)
          · exact Or.inr h
          · exact Or.inl trivial
          · exact absurd heq (by simp)
      | some iv =>
        simp only [isAcceptingExpr, Bool.or_eq_true, beq_iff_eq]
        constructor
        · rintro (h | h)
          · exact Or.inr (Or.inl ⟨some iv, a, rfl, Or.inr ⟨iv, rfl, h⟩⟩)
          · exact Or.inl h
        · rintro (h | ⟨i2, a2, heq, hcond⟩ | ⟨l2, i2, r2, heq, hcond⟩)
          · exact Or.inr h
          · left
            injection heq with h2
            injection h2 with hi ha
            rcases hcond with hc | ⟨iv2, hc, hut⟩
            · rw [← hi] at hc; exact absurd hc (by simp)
            · rw [← hi] at hc
              injection hc with hc2
              rw [hc2]
              exact hut
          · exact absurd heq (by simp)
    | UntilOp l i r =>
      cases i with
      | none =>
        simp only [isAcceptingExpr, Bool.or_eq_true, beq_iff_eq]
        constructor
        · rintro (h | h)
          · exact Or.inr (Or.inr ⟨l, none, r, rfl, Or.inl (by trivial)⟩)
          · exact Or.inl h
        · rintro (h | ⟨i2, a2, heq, hcond⟩ | ⟨l2, i2, r2, heq, hcond⟩)
          · exact Or.inr h
          · exact absurd heq (by simp)
          · exact Or.inl trivial
      | some iv =>
        simp only [isAcceptingExpr, Bool.or_eq_true, beq_iff_eq]
        constructor
        · rintro (h | h)
          · exact Or.inr (Or.inr ⟨l, some iv, r, rfl, Or.inr ⟨iv, rfl, h⟩⟩)
          · exact Or.inl h
        · rintro (h | ⟨i2, a2, heq, hcond⟩ | ⟨l2, i2, r2, heq, hcond⟩)
          · exact Or.inr h
          · exact absurd heq (by simp)
          · left
            injection heq with h2
            injection h2 with hl hi hr
            rcases hcond with hc | ⟨iv2, hc, hut⟩
            · rw [← hi] at hc; exact absurd hc (by simp)
            · rw [← hi] at hc
              injection hc with hc2
              rw [hc2]
              exact hut
    | Constant b => simp [isAcceptingExpr]
    | Identifier n => simp [isAcceptingExpr]
    | NotOp a => simp [isAcceptingExpr]
    | AndOp l r => simp [isAcceptingExpr]
    | OrOp l r => simp [isAcceptingExpr]
    | NextOp s a => simp [isAcceptingExpr]
    | GloballyOp i a => simp [isAcceptingExpr]
    | SomewhereOp i a => simp [isAcceptingExpr]
    | EverywhereOp i a => simp [isAcceptingExpr]
    | ReachOp l i r => simp [isAcceptingExpr]
    | EscapeOp i a => simp [isAcceptingExpr]
  | Constant b => simp [isAcceptingExpr]
  | Identifier n => simp [isAcceptingExpr]
  | AndOp l r => simp [isAcceptingExpr]
  | OrOp l r => simp [isAcceptingExpr]
  | NextOp s a => simp [isAcceptingExpr]
  | EventuallyOp i a => simp [isAcceptingExpr]
  | GloballyOp i a => simp [isAcceptingExpr]
  | UntilOp l i r => simp [isAcceptingExpr]
  | SomewhereOp i a => simp [isAcceptingExpr]
  | EverywhereOp i a => simp [isAcceptingExpr]
  | ReachOp l i r => simp [isAcceptingExpr]
  | EscapeOp i a => simp [isAcceptingExpr]

/-- **C5**: after construction, a state `(ψ, ℓ)` of the automaton is in
`accepting_states` iff `ψ` equals the initial expression, or `ψ` is a `NotOp`
whose argument is an `EventuallyOp` or `UntilOp` with no interval or an
untimed interval. -/
theorem accepting_states_characterization (φ : Expr) (N : ℕ) (dist_attr : Option String)
    (A : StrelAutomaton) (hA : fromStrelExpr φ N dist_attr = .ok A)
    (ψ : Expr) (ℓ : Location) (hs : (ψ, ℓ) ∈ A.states) :
    ((ψ, ℓ) ∈ A.accepting_states ↔
      (ψ = A.initial_expr ∨
        (∃ i a, ψ = .NotOp (.EventuallyOp i a) ∧
          (i = none ∨ ∃ iv, i = some iv ∧ iv.is_untimed = true)) ∨
        (∃ l i r, ψ = .NotOp (.UntilOp l i r) ∧
          (i = none ∨ ∃ iv, i = some iv ∧ iv.is_untimed = true)))) := by
  unfold fromStrelExpr at hA
  split at hA
  · exact absurd hA (by simp)
  · split at hA
    · exact absurd hA (by simp)
    · rename_i st hv
      split at hA
      · exact absurd hA (by simp)
      · split at hA
        · exact absurd hA (by simp)
        · rw [Except.ok.injEq] at hA
          have hkeys : st.constMapping = st.transitions :=
            visitF_preserves_keysEq (muExpr φ + 1) N φ _ st hv rfl
          have hsT : (ψ, ℓ) ∈ st.transitions := by
            have hst : A.states = st.constMapping := by rw [← hA]; rfl
            rw [hst] at hs
            rw [← hkeys]
            exact hs
          have hacc : A.accepting_states =
              st.transitions.filter (fun q => isAcceptingExpr φ q.1) := by rw [← hA]
          have hinit : A.initial_expr = φ := by rw [← hA]
          rw [hacc, hinit, List.mem_filter]
          constructor
          · intro hmem
            exact (isAcceptingExpr_iff φ ψ).mp hmem.2
          · intro hmem
            exact ⟨hsT, (isAcceptingExpr_iff φ ψ).mpr hmem⟩

theorem accepting_states_characterization_witness :
    fromStrelExpr (.Identifier "p") 1 none =
      .ok { initial_expr := .Identifier "p", const_mapping := [(.Identifier "p", 0)],
            transitions := [(.Identifier "p", 0)],
            accepting_states := [(.Identifier "p", 0)], max_locs := 1,
            dist_attr := "weight" } ∧
    ((Expr.Identifier "p", (0 : Location)) ∈
      ({ initial_expr := .Identifier "p", const_mapping := [(.Identifier "p", 0)],
         transitions := [(.Identifier "p", 0)],
         accepting_states := [(.Identifier "p", 0)], max_locs := 1,
         dist_attr := "weight" } : StrelAutomaton).states) ∧
    (((Expr.Identifier "p", (0 : Location)) ∈
      ({ initial_expr := .Identifier "p", const_mapping := [(.Identifier "p", 0)],
         transitions := [(.Identifier "p", 0)],
         accepting_states := [(.Identifier "p", 0)], max_locs := 1,
         dist_attr := "weight" } : StrelAutomaton).accepting_states) ↔
      (Expr.Identifier "p" =
        ({ initial_expr := .Identifier "p", const_mapping := [(.Identifier "p", 0)],
           transitions := [(.Identifier "p", 0)],
           accepting_states := [(.Identifier "p", 0)], max_locs := 1,
           dist_attr := "weight" } : StrelAutomaton).initial_expr ∨
        (∃ i a, Expr.Identifier "p" = .NotOp (.EventuallyOp i a) ∧
          (i = none ∨ ∃ iv, i = some iv ∧ iv.is_untimed = true)) ∨
        (∃ l i r, Expr.Identifier "p" = .NotOp (.UntilOp l i r) ∧
          (i = none ∨ ∃ iv, i = some iv ∧ iv.is_untimed = true)))) :=
  ⟨by decide, by decide,
    accepting_states_characterization (.Identifier "p") 1 none _ (by decide)
      (.Identifier "p") 0 (by decide)⟩

/-- Helper: the substitution lemma — evaluating a substituted polynomial is
evaluating the original against the evaluated substituents. -/
theorem eval_letSubst (p : BPoly) (σ : Q → BPoly) (c : Q → Bool) :
    (p.letSubst σ).eval c = p.eval (fun q => (σ q).eval c) := by
  induction p with
  | top => rfl
  | bot => rfl
  | var q => rfl
  | add a b iha ihb => simp [BPoly.letSubst, BPoly.eval, iha, ihb]
  | mul a b iha ihb => simp [BPoly.letSubst, BPoly.eval, iha, ihb]
  | neg a iha => simp [BPoly.letSubst, BPoly.eval, iha]

/-- Helper: a defined dict-based evaluation agrees with the proof-internal
total one under any total completion of the partial valuation. -/
theorem evalOpt_eval_agree (p : BPoly) (c : Q → Option Bool) (f : Q → Bool)
    (hcf : ∀ q b, c q = some b → f q = b) :
    ∀ (v : Bool), p.evalOpt c = some v → p.eval f = v := by
  induction p with
  | top => intro v h; rw [BPoly.eval]; exact Option.some.inj h
  | bot => intro v h; rw [BPoly.eval]; exact Option.some.inj h
  | var q => intro v h; exact hcf q v h
  | add a b iha ihb =>
    intro v h
    rw [BPoly.evalOpt] at h
    cases ha : a.evalOpt c with
    | none => rw [ha] at h; simp [Bind.bind, Option.bind] at h
    | some x =>
      rw [ha] at h
      simp only [Bind.bind, Option.bind] at h
      cases hb : b.evalOpt c with
      | none => rw [hb] at h; simp [Option.bind] at h
      | some y =>
        rw [hb] at h
        simp only [Option.bind, Option.some.injEq] at h
        rw [BPoly.eval, iha x ha, ihb y hb, h]
  | mul a b iha ihb =>
    intro v h
    rw [BPoly.evalOpt] at h
    cases ha : a.evalOpt c with
    | none => rw [ha] at h; simp [Bind.bind, Option.bind] at h
    | some x =>
      rw [ha] at h
      simp only [Bind.bind, Option.bind] at h
      cases hb : b.evalOpt c with
      | none => rw [hb] at h; simp [Option.bind] at h
      | some y =>
        rw [hb] at h
        simp only [Option.bind, Option.some.injEq] at h
        rw [BPoly.eval, iha x ha, ihb y hb, h]
  | neg a iha =>
    intro v h
    rw [BPoly.evalOpt] at h
    cases ha : a.evalOpt c with
    | none => rw [ha] at h; simp [Option.map] at h
    | some x =>
      rw [ha] at h
      simp only [Option.map, Option.some.injEq] at h
      rw [BPoly.eval, iha x ha, h]

/-- Helper: a defined dict-based substitution agrees with the proof-internal
total one under any total completion of the substituent map. -/
theorem letSubstOpt_letSubst_agree (σ : Q → Option BPoly) (τ : Q → BPoly)
    (hστ : ∀ q p', σ q = some p' → τ q = p') :
    ∀ (p p'' : BPoly), p.letSubstOpt σ = some p'' → p.letSubst τ = p'' := by
  intro p
  induction p with
  | top =>
    intro p'' h
    rw [BPoly.letSubst]
    exact Option.some.inj h
  | bot =>
    intro p'' h
    rw [BPoly.letSubst]
    exact Option.some.inj h
  | var q => intro p'' h; exact hστ q p'' h
  | add a b iha ihb =>
    intro p'' h
    rw [BPoly.letSubstOpt] at h
    cases ha : a.letSubstOpt σ with
    | none => rw [ha] at h; simp [Bind.bind, Option.bind] at h
    | some pa =>
      rw [ha] at h
      simp only [Bind.bind, Option.bind] at h
      cases hb : b.letSubstOpt σ with
      | none => rw [hb] at h; simp [Option.bind] at h
      | some pb =>
        rw [hb] at h
        simp only [Option.bind, Option.some.injEq] at h
        rw [BPoly.letSubst, iha pa ha, ihb pb hb, h]
  | mul a b iha ihb =>
    intro p'' h
    rw [BPoly.letSubstOpt] at h
    cases ha : a.letSubstOpt σ with
    | none => rw [ha] at h; simp [Bind.bind, Option.bind] at h
    | some pa =>
      rw [ha] at h
      simp only [Bind.bind, Option.bind] at h
      cases hb : b.letSubstOpt σ with
      | none => rw [hb] at h; simp [Option.bind] at h
      | some pb =>
        rw [hb] at h
        simp only [Option.bind, Option.some.injEq] at h
        rw [BPoly.letSubst, iha pa ha, ihb pb hb, h]
  | neg a iha =>
    intro p'' h
    rw [BPoly.letSubstOpt] at h
    cases ha : a.letSubstOpt σ with
    | none => rw [ha] at h; simp [Option.map] at h
    | some pa =>
      rw [ha] at h
      simp only [Option.map, Option.some.injEq] at h
      rw [BPoly.letSubst, iha pa ha, h]

/-- Helper: stepping the state polynomial through the trace with an arbitrary
total transition table and then grounding it equals grounding it against the
backward-composed costs. -/
theorem fold_eval_generic (T : Alph → Q → BPoly) (F : Q → Bool) :
    ∀ (trace : List Alph) (p : BPoly),
      (trace.foldl (fun s g => s.letSubst (T g)) p).eval F =
        p.eval (trace.foldr (fun g costs q => (T g q).eval costs) F) := by
  intro trace
  induction trace with
  | nil => intro p; rfl
  | cons g tr ih =>
    intro p
    rw [List.foldl_cons, ih, List.foldr_cons]
    exact eval_letSubst p _ _

/-- Helper: a forward run that completes without a `KeyError` computes the
fold of the total substitution along the trace (the total table defaults the
never-raised lookups to `⊥`, which the completed run never consults). -/
theorem foldlM_nextPoly_eq (lfn : LabelFn) (dist_attr : String)
    (decl trans : List Q) :
    ∀ (trace : List Alph) (p pT : BPoly),
      trace.foldlM (fun s g => nextPoly lfn dist_attr g decl trans s) p = some pT →
      trace.foldl (fun s g => s.letSubst
        (fun q => (evalTransTop lfn dist_attr g decl trans q.1 q.2).getD .bot)) p = pT := by
  intro trace
  induction trace with
  | nil =>
    intro p pT h
    simp only [List.foldlM_nil, Option.pure_def, Option.some.injEq] at h
    simpa using h
  | cons g tr ih =>
    intro p pT h
    rw [List.foldlM_cons] at h
    cases hn : nextPoly lfn dist_attr g decl trans p with
    | none => rw [hn] at h; simp [Bind.bind, Option.bind] at h
    | some p1 =>
      rw [hn] at h
      simp only [Bind.bind, Option.bind] at h
      rw [List.foldl_cons]
      rw [nextPoly] at hn
      have hsub : p.letSubst
          (fun q => (evalTransTop lfn dist_attr g decl trans q.1 q.2).getD .bot) = p1 :=
        letSubstOpt_letSubst_agree _ _ (fun q p' hq => by rw [hq]; rfl) p p1 hn
      rw [hsub]
      exact ih p1 pT h

/-- Helper: a reverse cost loop that completes without a `KeyError` agrees,
wherever it is defined, with the backward composition of the total transition
table over the total final valuation. -/
theorem revCosts_agree (A : StrelAutomaton) (lfn : LabelFn) :
    ∀ (trace : List Alph) (costs : Q → Option Bool),
      revCosts A lfn trace = some costs →
      ∀ q b, costs q = some b →
        (trace.foldr
          (fun g cs q =>
            ((evalTransTop lfn A.dist_attr g A.const_mapping A.transitions q.1 q.2).getD
              .bot).eval cs)
          (fun q => (finalMapping A q).getD false)) q = b := by
  intro trace
  induction trace with
  | nil =>
    intro costs h q b hqb
    simp only [revCosts, Option.some.injEq] at h
    subst h
    rw [List.foldr_nil]
    show (finalMapping A q).getD false = b
    rw [hqb]
    rfl
  | cons g tr ih =>
    intro costs h q b hqb
    rw [revCosts] at h
    cases h0 : revCosts A lfn tr with
    | none => rw [h0] at h; simp [Bind.bind, Option.bind] at h
    | some costs' =>
      rw [h0] at h
      simp only [Bind.bind, Option.bind] at h
      rw [revCostsStep] at h
      by_cases hall : A.const_mapping.all (fun q =>
          ((evalTransTop lfn A.dist_attr g A.const_mapping A.transitions q.1 q.2).bind
            (fun P => P.evalOpt costs')).isSome) = true
      · rw [if_pos hall, Option.some.injEq] at h
        rw [← h] at hqb
        simp only [] at hqb
        by_cases hq : q ∈ A.const_mapping
        · rw [if_pos hq] at hqb
          cases hP : evalTransTop lfn A.dist_attr g A.const_mapping A.transitions q.1 q.2 with
          | none => rw [hP] at hqb; simp [Option.bind] at hqb
          | some P =>
            rw [hP] at hqb
            simp only [Option.bind] at hqb
            rw [List.foldr_cons]
            show ((evalTransTop lfn A.dist_attr g A.const_mapping A.transitions q.1
                q.2).getD .bot).eval
              (tr.foldr
                (fun g cs q =>
                  ((evalTransTop lfn A.dist_attr g A.const_mapping A.transitions q.1
                    q.2).getD .bot).eval cs)
                (fun q => (finalMapping A q).getD false)) = b
            rw [hP]
            exact evalOpt_eval_agree P costs' _ (ih costs' h0) b hqb
        · rw [if_neg hq] at hqb
          exact absurd hqb (by simp)
      · rw [if_neg hall] at h
        exact absurd h (by simp)

/-- **C2 (counterexample)**: the two `check_run` modes do not always return
the same verdict.  `F[2,2] p` lies in the claimed fragment (an `EventuallyOp`
with a finite upper time bound) and compiles; on a one-input trace the
forward run returns the verdict `False`, but the reverse run raises: its cost
loop evaluates the transition of the state `(X[1] F[0,0] p, ℓ)`, whose
`get_var` looks up the never-declared key `(F[0,0] p, ℓ)` in `const_mapping`
and raises `KeyError` (strel.py line 71 via lines 237-239), so reverse
`check_run` returns no verdict at all (`none`). -/
theorem check_run_mode_disagreement :
    isFragment (.EventuallyOp (some ⟨some 2, some 2⟩) (.Identifier "p")) = true ∧
    (fromStrelExpr (.EventuallyOp (some ⟨some 2, some 2⟩) (.Identifier "p")) 1 none).map
        (fun A => checkRun A pAtZero 0 [twoNodeGraph] true) = .ok none ∧
    (fromStrelExpr (.EventuallyOp (some ⟨some 2, some 2⟩) (.Identifier "p")) 1 none).map
        (fun A => checkRun A pAtZero 0 [twoNodeGraph] false) = .ok (some false) ∧
    (none : Option Bool) ≠ some false := by
  refine ⟨by decide, by decide, by decide, by decide⟩

/-- **C2 (amended)**: for a compiled formula of the fragment, whenever the
two `check_run` modes both complete without raising (each returns a verdict),
the verdicts agree: the forward fold of `next` grounded at `final_mapping`
and the backward cost composition evaluate the same initial polynomial
against pointwise-equal valuations.  (Unconditional agreement is refuted by
the counterexample: the reverse mode can raise where the forward mode returns
a verdict.) -/
theorem check_run_mode_agreement (φ : Expr) (N : ℕ) (dist_attr : Option String)
    (lfn : LabelFn) (ego_location : Location) (trace : List Alph)
    (A : StrelAutomaton) (b1 b2 : Bool)
    (_hfrag : isFragment φ = true)
    (_hA : fromStrelExpr φ N dist_attr = .ok A)
    (h1 : checkRun A lfn ego_location trace true = some b1)
    (h2 : checkRun A lfn ego_location trace false = some b2) :
    b1 = b2 := by
  rw [checkRun, if_pos rfl] at h1
  rw [checkRun, if_neg (by simp)] at h2
  simp only [Bind.bind] at h1 h2
  cases hc : revCosts A lfn trace with
  | none => rw [hc] at h1; simp [Option.bind] at h1
  | some costs =>
  rw [hc] at h1
  simp only [Option.bind] at h1
  cases hp0 : initialAt A ego_location with
  | none => rw [hp0] at h1; simp [Option.bind] at h1
  | some p0 =>
  rw [hp0] at h1
  simp only [Option.bind] at h1
  rw [hp0] at h2
  simp only [Option.bind] at h2
  cases hT : trace.foldlM
      (fun s g => nextPoly lfn A.dist_attr g A.const_mapping A.transitions s) p0 with
  | none => rw [hT] at h2; simp [Option.bind] at h2
  | some pT =>
  rw [hT] at h2
  simp only [Option.bind] at h2
  have hfwd := foldlM_nextPoly_eq lfn A.dist_attr A.const_mapping A.transitions
    trace p0 pT hT
  have e2 : pT.eval (fun q => (finalMapping A q).getD false) = b2 :=
    evalOpt_eval_agree pT (finalMapping A) _ (fun q b hb => by rw [hb]; rfl) b2 h2
  have e1 : p0.eval (trace.foldr
      (fun g cs q =>
        ((evalTransTop lfn A.dist_attr g A.const_mapping A.transitions q.1 q.2).getD
          .bot).eval cs)
      (fun q => (finalMapping A q).getD false)) = b1 :=
    evalOpt_eval_agree p0 costs _ (revCosts_agree A lfn trace costs hc) b1 h1
  have hkey := fold_eval_generic
    (fun g q => (evalTransTop lfn A.dist_attr g A.const_mapping A.transitions q.1
      q.2).getD .bot)
    (fun q => (finalMapping A q).getD false) trace p0
  rw [hfwd, e2, e1] at hkey
  exact hkey.symm

theorem check_run_mode_agreement_witness :
    isFragment (.Identifier "p") = true ∧
    fromStrelExpr (.Identifier "p") 1 none =
      .ok { initial_expr := .Identifier "p", const_mapping := [(.Identifier "p", 0)],
            transitions := [(.Identifier "p", 0)],
            accepting_states := [(.Identifier "p", 0)], max_locs := 1,
            dist_attr := "weight" } ∧
    checkRun { initial_expr := .Identifier "p", const_mapping := [(.Identifier "p", 0)],
               transitions := [(.Identifier "p", 0)],
               accepting_states := [(.Identifier "p", 0)], max_locs := 1,
               dist_attr := "weight" } pAtZero 0 [twoNodeGraph] true = some true ∧
    checkRun { initial_expr := .Identifier "p", const_mapping := [(.Identifier "p", 0)],
               transitions := [(.Identifier "p", 0)],
               accepting_states := [(.Identifier "p", 0)], max_locs := 1,
               dist_attr := "weight" } pAtZero 0 [twoNodeGraph] false = some true ∧
    (true : Bool) = true :=
  ⟨by decide, by decide, by decide, by decide,
    check_run_mode_agreement (.Identifier "p") 1 none pAtZero 0 [twoNodeGraph]
      { initial_expr := .Identifier "p", const_mapping := [(.Identifier "p", 0)],
        transitions := [(.Identifier "p", 0)],
        accepting_states := [(.Identifier "p", 0)], max_locs := 1,
        dist_attr := "weight" } true true
      (by decide) (by decide) (by decide) (by decide)⟩

theorem all_reach_edge_paths_characterization_witness :
    (∀ x ∈ (0 : Location) :: twoNodeGraph.nodes, (getEdges twoNodeGraph "weight" x).Nodup) ∧
    (∀ x ∈ (0 : Location) :: twoNodeGraph.nodes,
      ∀ e ∈ getEdges twoNodeGraph "weight" x, e.1 ∈ twoNodeGraph.nodes ∧ 0 ≤ e.2) ∧
    ((0 : ℚ) ≤ 0) ∧ (((0 : ℚ) : WithTop ℚ) ≤ ((2 : ℚ) : WithTop ℚ)) ∧
    ((∀ p, p ∈ allReachEdgePaths twoNodeGraph 0 0 ((2 : ℚ) : WithTop ℚ) "weight" ↔
        ∃ raw, contFrom twoNodeGraph "weight" 0 [0] raw = true ∧
          (0 : ℚ) ≤ rawWeight raw ∧ ((rawWeight raw : ℚ) : WithTop ℚ) ≤ ((2 : ℚ) : WithTop ℚ) ∧
          p = emittedForm 0 raw) ∧
      (allReachEdgePaths twoNodeGraph 0 0 ((2 : ℚ) : WithTop ℚ) "weight").Nodup ∧
      ([] ∈ allReachEdgePaths twoNodeGraph 0 0 ((2 : ℚ) : WithTop ℚ) "weight" ↔ (0 : ℚ) = 0)) :=
  ⟨by decide, by decide, by decide, by decide,
    all_reach_edge_paths_characterization twoNodeGraph "weight" 0 0 ((2 : ℚ) : WithTop ℚ)
      (by decide) (by decide) (by decide) (by decide)⟩
